import Mathlib

/-
Verification of the samplr image-sampling package (src/samplr/core.py) against
its natural-language specification. Filenames are modelled as lists of
characters (Python strings); directory listings as lists of filenames;
datetimes as explicit records. Every function below is a shallow embedding of
the correspondingly named Python function from samplr/core.py.
-/

namespace Samplr

universe u

/-- Python exception classes relevant to the embedded code paths. -/
inductive PyExc where
  | attributeError
  | keyError
  | typeError
  | valueError
  | osError
  | overflowError
deriving DecidableEq

/-- Filenames (Python `str`) are modelled as lists of characters. -/
abbrev FName := List Char

/-- Embeds pathlib's `Path.suffix`: the final dot-component of the name
including the dot, or empty when the final dot is leading, trailing or absent
(CPython: `i = name.rfind('.'); name[i:] if 0 < i < len(name) - 1 else ''`). -/
def pySuffix (name : FName) : List Char :=
  if (name.reverse.takeWhile (fun c => !(c = '.'))).length = 0 ∨
      name.length - 1 ≤ (name.reverse.takeWhile (fun c => !(c = '.'))).length then []
  else '.' :: (name.reverse.takeWhile (fun c => !(c = '.'))).reverse

/-- Embeds pathlib's `Path.stem`: the name with `pySuffix` removed. -/
def pyStem (name : FName) : List Char :=
  if (name.reverse.takeWhile (fun c => !(c = '.'))).length = 0 ∨
      name.length - 1 ≤ (name.reverse.takeWhile (fun c => !(c = '.'))).length then name
  else (name.reverse.drop ((name.reverse.takeWhile (fun c => !(c = '.'))).length + 1)).reverse

/-- Embeds Python `s.split('_')`: always returns a nonempty list of parts. -/
def splitUnd : List Char → List (List Char)
  | [] => [[]]
  | c :: rest =>
    if c = '_' then [] :: splitUnd rest
    else
      match splitUnd rest with
      | [] => [[c]]
      | p :: ps => (c :: p) :: ps

/-- Embeds Python `'_'.join(parts)`. -/
def joinUnd : List (List Char) → List Char
  | [] => []
  | [p] => p
  | p :: ps => p ++ '_' :: joinUnd ps

/-- Embeds Python `s.split('_')[-1]`: the text after the final underscore. -/
def lastTok (s : List Char) : List Char :=
  (splitUnd s).getLastD []

/-- Embeds Python `'_'.join(s.split('_')[:-1])`: the text before the final
underscore (used by `_get_default_base_name`). -/
def beforeLastJoined (s : List Char) : List Char :=
  joinUnd (splitUnd s).dropLast

/-- Embeds Python `s.lower()` (ASCII case folding suffices for extensions). -/
def lowerStr (s : List Char) : List Char :=
  s.map Char.toLower

/-- The module constant SUPPORTED_EXTENSIONS from core.py. -/
def SUPPORTED : List (List Char) :=
  [".jpg".toList, ".jpeg".toList, ".png".toList, ".gif".toList]

/-- Embeds the listing filter `f.suffix.lower() in SUPPORTED_EXTENSIONS`. -/
def isSupported (name : FName) : Bool :=
  decide (lowerStr (pySuffix name) ∈ SUPPORTED)

/-- Decimal digit characters, `digitChar d` for d < 10. -/
def digitChar : Nat → Char
  | 0 => '0'
  | 1 => '1'
  | 2 => '2'
  | 3 => '3'
  | 4 => '4'
  | 5 => '5'
  | 6 => '6'
  | 7 => '7'
  | 8 => '8'
  | _ => '9'

/-- Numeric value of a digit character. -/
def digitVal (c : Char) : Nat := c.toNat - 48

/-- Little-endian decimal digits of n, with explicit fuel (fuel ≥ n suffices). -/
def natDigitsAux : Nat → Nat → List Char
  | _, 0 => []
  | 0, _ + 1 => []
  | fuel + 1, n + 1 => digitChar ((n + 1) % 10) :: natDigitsAux fuel ((n + 1) / 10)

/-- Embeds Python `str(n)` for a nonnegative integer. -/
def natDigits (n : Nat) : List Char :=
  if n = 0 then ['0'] else (natDigitsAux n n).reverse

/-- Embeds Python `len(str(n))` for a nonnegative integer. -/
def digitCountNat (n : Nat) : Nat :=
  (natDigits n).length

/-- Embeds Python `len(str(n))` for an arbitrary integer (sign included). -/
def pyStrLen (n : Int) : Nat :=
  if n < 0 then 1 + digitCountNat (-n).toNat else digitCountNat n.toNat

/-- Strips leading and trailing whitespace, as Python `int()` does. -/
def stripWs (s : List Char) : List Char :=
  ((s.dropWhile Char.isWhitespace).reverse.dropWhile Char.isWhitespace).reverse

/-- Validity of the tail of a Python integer literal: digits with single
underscore separators between digits (an underscore must be followed by a
digit and must not end the literal). -/
def validDigitsTail : List Char → Bool
  | [] => true
  | [c] => if c = '_' then false else c.isDigit
  | c :: c2 :: rest =>
    if c = '_' then c2.isDigit && validDigitsTail rest
    else c.isDigit && validDigitsTail (c2 :: rest)

/-- Validity of an unsigned Python integer literal body. -/
def validDigitStr (l : List Char) : Bool :=
  match l with
  | [] => false
  | c :: rest => c.isDigit && validDigitsTail rest

/-- Value of a digit string, skipping underscore separators. -/
def digitsFoldVal (l : List Char) : Nat :=
  l.foldl (fun a c => if c = '_' then a else a * 10 + digitVal c) 0

/-- Embeds Python `int(s)`: `some` value on success, `none` when `int` would
raise ValueError. Accepts surrounding whitespace, an optional sign, and
underscore digit grouping, as Python does. -/
def pyParseInt (tok : List Char) : Option Int :=
  match stripWs tok with
  | [] => none
  | c :: rest =>
    if c = '-' then
      if validDigitStr rest then some (-(digitsFoldVal rest : Int)) else none
    else if c = '+' then
      if validDigitStr rest then some ((digitsFoldVal rest : Int)) else none
    else if validDigitStr (c :: rest) then some ((digitsFoldVal (c :: rest) : Int))
    else none

/-- Left pad with zeros to the given width. -/
def padZeros (l : List Char) (w : Nat) : List Char :=
  List.replicate (w - l.length) '0' ++ l

/-- Embeds the Python format `f"{n:0{w}d}"`: zero-padded decimal of total
width w, the sign counting towards the width. -/
def formatInt (n : Int) (w : Nat) : List Char :=
  if n < 0 then '-' :: padZeros (natDigits (-n).toNat) (w - 1)
  else padZeros (natDigits n.toNat) w

/-- Embeds `base_name.replace("CO", "SM")`: non-overlapping left-to-right
replacement of every occurrence of "CO" by "SM". -/
def replaceCOSM : List Char → List Char
  | 'C' :: 'O' :: rest => 'S' :: 'M' :: replaceCOSM rest
  | c :: rest => c :: replaceCOSM rest
  | [] => []

/-- Code-point comparison of characters, as Python string comparison uses. -/
def charLt (a b : Char) : Bool :=
  decide (a.toNat < b.toNat)

/-- Lexicographic order on filenames by code point, embedding Python string
(and single-directory `Path`) comparison. -/
def lexLe : List Char → List Char → Bool
  | [], _ => true
  | _ :: _, [] => false
  | a :: s, b :: t =>
    if charLt a b then true
    else if charLt b a then false
    else lexLe s t

/-- Ordered insertion used by the stable insertion sort below. -/
def insertLe {α : Type u} (le : α → α → Bool) (x : α) : List α → List α
  | [] => [x]
  | y :: ys => if le x y then x :: y :: ys else y :: insertLe le x ys

/-- Stable sort embedding Python `sorted`. -/
def sortLe {α : Type u} (le : α → α → Bool) : List α → List α
  | [] => []
  | x :: xs => insertLe le x (sortLe le xs)

/-- Stride-selection worker: `c` counts down the elements still to skip. -/
def strideAux {α : Type u} (k : Nat) : List α → Nat → List α
  | [], _ => []
  | x :: xs, 0 => x :: strideAux k xs (k - 1)
  | _ :: xs, c + 1 => strideAux k xs c

/-- Elements at positions 0, k, 2k, … of a list. -/
def strideTake {α : Type u} (l : List α) (k : Nat) : List α :=
  strideAux k l 0

/-- Embeds the Python slice `l[::k]`: ValueError on step 0, stride selection
for positive step, stride selection over the reversed list for negative step. -/
def pySlice {α : Type u} (l : List α) (k : Int) : Except PyExc (List α) :=
  if k = 0 then .error .valueError
  else if 0 < k then .ok (strideTake l k.toNat)
  else .ok (strideTake l.reverse (-k).toNat)

/-- Time of day (Python `datetime.time`, to second granularity). -/
structure Time where
  hour : Nat
  minute : Nat
  second : Nat
deriving DecidableEq

/-- Calendar timestamp (Python `datetime.datetime`, to second granularity). -/
structure DateTime where
  year : Nat
  month : Nat
  day : Nat
  hour : Nat
  minute : Nat
  second : Nat
deriving DecidableEq

/-- The `.date()` component of a datetime. -/
def DateTime.dateOf (dt : DateTime) : Nat × Nat × Nat :=
  (dt.year, dt.month, dt.day)

/-- The `.time()` component of a datetime. -/
def DateTime.timeOfDay (dt : DateTime) : Time :=
  ⟨dt.hour, dt.minute, dt.second⟩

/-- Embeds Python `time` comparison: lexicographic on (hour, minute, second). -/
def timeLe (a b : Time) : Bool :=
  if a.hour = b.hour then
    if a.minute = b.minute then decide (a.second ≤ b.second)
    else decide (a.minute < b.minute)
  else decide (a.hour < b.hour)

/-- Embeds the minute-of-day distance used by `sample_closest_to_time`:
`abs((dt.time().hour*60 + dt.time().minute) - (target.hour*60 + target.minute))`. -/
def minuteDist (dt : DateTime) (target : Time) : Nat :=
  ((dt.hour * 60 + dt.minute : Int) - (target.hour * 60 + target.minute : Int)).natAbs

/-- Embeds `ImageSampler._is_within_time_range`. -/
def isWithinTimeRange (dt : DateTime) (startT endT : Time) : Bool :=
  let ct := dt.timeOfDay
  if timeLe startT endT then timeLe startT ct && timeLe ct endT
  else timeLe startT ct || timeLe ct endT

/-- Tests whether the first list starts the second. -/
def leadsWith : List Char → List Char → Bool
  | [], _ => true
  | _ :: _, [] => false
  | a :: s, b :: t => decide (a = b) && leadsWith s t

/-- Tests whether the first list ends the second. -/
def trailsWith (p s : List Char) : Bool :=
  leadsWith p.reverse s.reverse

/-- Embeds the glob pattern `{base_name}_*{suffix}` applied to a single
name (`*` matches any, possibly empty, character sequence): the name is
`base ++ "_" ++ mid ++ suffix` for some mid. -/
def matchPat (base suffix name : FName) : Bool :=
  leadsWith (base ++ ['_']) name && trailsWith suffix name &&
    decide (base.length + 1 + suffix.length ≤ name.length)

/-- The text parsed as a sequence number: `file.stem.split('_')[-1]`. -/
def tokenOf (name : FName) : List Char :=
  lastTok (pyStem name)

/-- Embeds `int(file.stem.split('_')[-1])` as an optional value. -/
def parsedNum (name : FName) : Option Int :=
  pyParseInt (tokenOf name)

/-- Embeds Python `max(l)` on a list of integers: `none` exactly when the
list is empty (where Python `max` raises). -/
def listMax : List Int → Option Int
  | [] => none
  | v :: vs => some (vs.foldl max v)

/-- Embeds `ImageSampler._get_required_digits`: the dest-directory scan that
computes the zero-padding width. Unparseable entries are skipped by the
`try/except: continue` inside the loop, but still counted by
`len(existing_files)`. -/
def getRequiredDigits (dest : List FName) (base suffix : FName) : Nat :=
  if (dest.filter (matchPat base suffix)).isEmpty then 4
  else
    max 4 (pyStrLen
      ((dest.filter (matchPat base suffix)).foldl
        (fun m f => match parsedNum f with
          | some n => max m n
          | none => m) 0
       + (dest.filter (matchPat base suffix)).length))

/-- Embeds the next-sequence-number scan of `ImageSampler.copy_and_rename`
(lines 229-237): `max(int(f.stem.split('_')[-1]) for f in existing_files)`
raises ValueError as soon as any entry fails to parse, caught by the
surrounding `except`, leaving `next_num = 1`. -/
def nextNum (dest : List FName) (base suffix : FName) : Int :=
  if (dest.filter (matchPat base suffix)).all (fun f => (parsedNum f).isSome) then
    match listMax ((dest.filter (matchPat base suffix)).filterMap parsedNum) with
    | some m => m + 1
    | none => 1
  else 1

/-- The output filename `f"{base_name}_{next_num:0{required_digits}d}{suffix}"`. -/
def mkName (base : FName) (n : Int) (w : Nat) (suffix : FName) : FName :=
  base ++ '_' :: (formatInt n w ++ suffix)

/-- One `shutil.copy2` into the destination listing: overwriting an existing
name leaves the listing unchanged as a set of names. -/
def addFile (dest : List FName) (n : FName) : List FName :=
  if n ∈ dest then dest else dest ++ [n]

/-- Embeds `ImageSampler.copy_and_rename` acting on a destination-directory
listing: returns the list of created names and the final listing. The
extension is taken from the first selected file ('.jpg' when the selection is
empty), the width and start index from the two scans above. -/
def copyAndRename (dest : List FName) (base : FName) (selected : List FName) :
    List FName × List FName :=
  let suffix := match selected with
    | [] => ".jpg".toList
    | f :: _ => pySuffix f
  let digits := getRequiredDigits dest base suffix
  let start := nextNum dest base suffix
  let newNames := (List.range selected.length).map
    (fun (i : Nat) => mkName base (start + (i : Int)) digits suffix)
  (newNames, newNames.foldl addFile dest)

/-- Embeds `ImageSampler._get_default_base_name`. -/
def defaultBaseName (sourceListing : List FName) : FName :=
  let imageFiles := sortLe lexLe (sourceListing.filter isSupported)
  match imageFiles with
  | [] => "image".toList
  | first :: _ =>
    let b := pyStem first
    let b := if '_' ∈ b then beforeLastJoined b else b
    replaceCOSM b

/-- Embeds line 220 of `copy_and_rename`:
`self.base_name if self.base_name is not None else self._get_default_base_name()`. -/
def resolveBaseName (explicit : Option FName) (sourceListing : List FName) : FName :=
  match explicit with
  | some b => b
  | none => defaultBaseName sourceListing

/-- Embeds `ImageSampler.sample_every_nth` over a source-directory listing. -/
def sampleEveryNth (listing : List FName) (n : Int) : Except PyExc (List FName) :=
  pySlice (sortLe lexLe (listing.filter isSupported)) n

/-- One dict update `images_by_date.setdefault(key, []).append(item)`:
appends to an existing key's group, else appends a new key at the end
(Python dicts preserve insertion order). -/
def groupUpd (gs : List ((Nat × Nat × Nat) × List (FName × DateTime)))
    (k : Nat × Nat × Nat) (it : FName × DateTime) :
    List ((Nat × Nat × Nat) × List (FName × DateTime)) :=
  match gs with
  | [] => [(k, [it])]
  | (k', its) :: rest =>
    if k' = k then (k', its ++ [it]) :: rest
    else (k', its) :: groupUpd rest k it

/-- The by-date grouping loop of `sample_closest_to_time`. -/
def groupFold (resolve : FName → DateTime) (files : List FName) :
    List ((Nat × Nat × Nat) × List (FName × DateTime)) :=
  files.foldl (fun gs p => groupUpd gs (resolve p).dateOf (p, resolve p)) []

/-- The keys of the grouping dict in insertion order (first occurrences). -/
def firstKeys (ks : List (Nat × Nat × Nat)) : List (Nat × Nat × Nat) :=
  ks.foldl (fun acc k => if k ∈ acc then acc else acc ++ [k]) []

/-- Embeds Python `min(l, key=key)`: first element attaining the minimal key,
`none` on the empty list (where Python `min` raises). -/
def pyMinBy {α : Type u} (key : α → Nat) : List α → Option α
  | [] => none
  | x :: xs => some (xs.foldl (fun best y => if key y < key best then y else best) x)

/-- Embeds `ImageSampler.sample_closest_to_time`: the timestamp resolver is a
function parameter (it is total in the code, see `getImageDatetime`). -/
def sampleClosestToTime (listing : List FName) (resolve : FName → DateTime)
    (target : Time) : List FName :=
  let imageFiles := listing.filter isSupported
  let groups := groupFold resolve imageFiles
  let selected := groups.filterMap
    (fun g => (pyMinBy (fun x => minuteDist x.2 target) g.2).map Prod.fst)
  sortLe lexLe selected

/-- Embeds `ImageSampler.sample_every_nth_in_time_range`. -/
def sampleEveryNthInTimeRange (listing : List FName) (resolve : FName → DateTime)
    (n : Int) (startT endT : Time) : Except PyExc (List FName) :=
  let imageFiles := listing.filter isSupported
  let filtered := imageFiles.filter (fun p => isWithinTimeRange (resolve p) startT endT)
  pySlice (sortLe lexLe filtered) n

/-- Stated from the spec (claim C9): "dropping everything from the final
underscore onward when the stem contains an underscore": the text after the
final underscore is the maximal underscore-free tail of the string. -/
def specDropFinalUnd (s : List Char) : List Char :=
  if '_' ∈ s then ((s.reverse.dropWhile (fun c => !(c = '_'))).drop 1).reverse else s

/-- Stated from the spec (claim C7): a time-of-day t is kept when
`start <= t <= end` if `start <= end`, and when `t >= start or t <= end`
(interval wrapping past midnight) if `start > end`; boundaries inclusive. -/
def specTimeKept (startT endT t : Time) : Bool :=
  if timeLe startT endT then timeLe startT t && timeLe t endT
  else timeLe startT t || timeLe t endT

/-- The exception classes caught by `_get_image_datetime`:
`except (AttributeError, KeyError, TypeError, ValueError)`. -/
def caught : PyExc → Bool
  | .attributeError => true
  | .keyError => true
  | .typeError => true
  | .valueError => true
  | _ => false

/-- The body of the `with Image.open(...)` block of `_get_image_datetime`:
if the EXIF dict is truthy, look up tag 36867 then tag 306 and parse the
first hit; `parseVal` embeds `dateutil.parser.parse` and may raise. -/
def exifAttempt {V : Type u} (exif : List (Nat × V))
    (parseVal : V → Except PyExc DateTime) : Except PyExc (Option DateTime) :=
  if exif.isEmpty then .ok none
  else
    match (exif.find? (fun kv => kv.1 = 36867)).map Prod.snd with
    | some v => (parseVal v).map some
    | none =>
      match (exif.find? (fun kv => kv.1 = 306)).map Prod.snd with
      | some v => (parseVal v).map some
      | none => .ok none

/-- Embeds `ImageSampler._get_image_datetime`. `opened` is the outcome of
`Image.open(...)._getexif()` (an exception, or None, or an EXIF dict);
exceptions of the caught classes fall through to the mtime fallback, others
propagate. -/
def getImageDatetime {V : Type u} (opened : Except PyExc (Option (List (Nat × V))))
    (parseVal : V → Except PyExc DateTime) (mtime : DateTime) :
    Except PyExc DateTime :=
  let attempt : Except PyExc (Option DateTime) :=
    match opened with
    | .error e => .error e
    | .ok none => .ok none
    | .ok (some exif) => exifAttempt exif parseVal
  match attempt with
  | .ok (some d) => .ok d
  | .ok none => .ok mtime
  | .error e => if caught e then .ok mtime else .error e

/-! Helper lemmas about stride selection. -/

theorem strideAux_get? {α : Type u} (k : Nat) (hk : 1 ≤ k) :
    ∀ (l : List α) (c i : Nat), (strideAux k l c).get? i = l.get? (c + k * i) := by
  intro l
  induction l with
  | nil => intro c i; simp [strideAux]
  | cons x xs ih =>
    intro c i
    cases c with
    | zero =>
      cases i with
      | zero => simp [strideAux]
      | succ j =>
        have h1 : (strideAux k (x :: xs) 0).get? (j + 1) =
            (strideAux k xs (k - 1)).get? j := by
          simp [strideAux]
        rw [h1, ih (k - 1) j,
          show 0 + k * (j + 1) = ((k - 1) + k * j) + 1 by rw [Nat.mul_succ]; omega,
          List.get?_cons_succ]
    | succ c' =>
      have h1 : strideAux k (x :: xs) (c' + 1) = strideAux k xs c' := by
        simp [strideAux]
      rw [h1, ih c' i, show c' + 1 + k * i = (c' + k * i) + 1 by omega,
        List.get?_cons_succ]

theorem strideTake_get? {α : Type u} (l : List α) (k : Nat) (hk : 1 ≤ k) (i : Nat) :
    (strideTake l k).get? i = l.get? (k * i) := by
  have := strideAux_get? k hk l 0 i
  simpa [strideTake] using this

theorem strideAux_length {α : Type u} (k : Nat) (hk : 1 ≤ k) :
    ∀ (l : List α) (c : Nat), c ≤ k - 1 →
      (strideAux k l c).length = (l.length + (k - 1) - c) / k := by
  intro l
  induction l with
  | nil =>
    intro c hc
    simp only [strideAux, List.length_nil]
    rw [Nat.div_eq_of_lt (by omega)]
  | cons x xs ih =>
    intro c hc
    cases c with
    | zero =>
      have h1 : (strideAux k (x :: xs) 0).length =
          (strideAux k xs (k - 1)).length + 1 := by
        simp [strideAux]
      rw [h1, ih (k - 1) (le_refl _),
        show xs.length + (k - 1) - (k - 1) = xs.length by omega,
        show (x :: xs).length + (k - 1) - 0 = xs.length + k by simp; omega,
        Nat.add_div_right _ (by omega)]
    | succ c' =>
      have h1 : strideAux k (x :: xs) (c' + 1) = strideAux k xs c' := by
        simp [strideAux]
      rw [h1, ih c' (by omega)]
      congr 1
      simp
      omega

theorem strideTake_length {α : Type u} (l : List α) (k : Nat) (hk : 1 ≤ k) :
    (strideTake l k).length = (l.length + k - 1) / k := by
  have := strideAux_length k hk l 0 (by omega)
  simp only [strideTake, Nat.sub_zero] at this ⊢
  rw [this]
  congr 1
  omega

theorem strideAux_sublist {α : Type u} (k : Nat) :
    ∀ (l : List α) (c : Nat), (strideAux k l c).Sublist l := by
  intro l
  induction l with
  | nil => intro c; simp [strideAux]
  | cons x xs ih =>
    intro c
    cases c with
    | zero =>
      have h1 : strideAux k (x :: xs) 0 = x :: strideAux k xs (k - 1) := by
        simp [strideAux]
      rw [h1]
      exact List.Sublist.cons₂ x (ih (k - 1))
    | succ c' =>
      have h1 : strideAux k (x :: xs) (c' + 1) = strideAux k xs c' := by
        simp [strideAux]
      rw [h1]
      exact List.Sublist.cons x (ih c')

theorem strideTake_sublist {α : Type u} (l : List α) (k : Nat) :
    (strideTake l k).Sublist l :=
  strideAux_sublist k l 0

/-! Helper lemmas about the lexicographic order and the insertion sort. -/

theorem lexLe_total : ∀ a b : List Char, lexLe a b = true ∨ lexLe b a = true := by
  intro a
  induction a with
  | nil => intro b; left; simp [lexLe]
  | cons x s ih =>
    intro b
    cases b with
    | nil => right; simp [lexLe]
    | cons y t =>
      by_cases hxy : charLt x y = true
      · left; simp [lexLe, hxy]
      · by_cases hyx : charLt y x = true
        · right; simp [lexLe, hyx]
        · rcases ih t with h | h
          · left; simp [lexLe, hxy, hyx, h]
          · right; simp [lexLe, hxy, hyx, h]

theorem charLt_asymm {a b : Char} (h : charLt a b = true) : charLt b a = false := by
  simp only [charLt, decide_eq_true_eq] at h
  simp only [charLt, decide_eq_false_iff_not]
  omega

theorem charLt_trans {a b c : Char} (h1 : charLt a b = true) (h2 : charLt b c = true) :
    charLt a c = true := by
  simp only [charLt, decide_eq_true_eq] at h1 h2 ⊢
  omega

theorem lexLe_trans : ∀ {a b c : List Char},
    lexLe a b = true → lexLe b c = true → lexLe a c = true := by
  intro a
  induction a with
  | nil => intro b c _ _; simp [lexLe]
  | cons x s ih =>
    intro b c hab hbc
    cases b with
    | nil => simp [lexLe] at hab
    | cons y t =>
      cases c with
      | nil => simp [lexLe] at hbc
      | cons z u =>
        by_cases hxy : charLt x y = true
        · by_cases hyz : charLt y z = true
          · simp [lexLe, charLt_trans hxy hyz]
          · by_cases hzy : charLt z y = true
            · simp [lexLe, hyz, hzy] at hbc
            · have hxz : charLt x z = true := by
                simp only [charLt, decide_eq_true_eq] at hxy hyz hzy ⊢
                omega
              simp [lexLe, hxz]
        · by_cases hyx : charLt y x = true
          · simp [lexLe, hxy, hyx] at hab
          · by_cases hyz : charLt y z = true
            · have hxz : charLt x z = true := by
                simp only [charLt, decide_eq_true_eq] at hxy hyx hyz ⊢
                omega
              simp [lexLe, hxz]
            · by_cases hzy : charLt z y = true
              · simp [lexLe, hyz, hzy] at hbc
              · have hxz : charLt x z = false := by
                  simp only [charLt, decide_eq_true_eq] at hxy hyx hyz hzy
                  simp only [charLt, decide_eq_false_iff_not]
                  omega
                have hzx : charLt z x = false := by
                  simp only [charLt, decide_eq_true_eq] at hxy hyx hyz hzy
                  simp only [charLt, decide_eq_false_iff_not]
                  omega
                simp only [lexLe, hxy, hyx, if_false] at hab
                simp only [lexLe, hyz, hzy, if_false] at hbc
                simp [lexLe, hxz, hzx, ih hab hbc]

theorem insertLe_perm {α : Type u} (le : α → α → Bool) (x : α) :
    ∀ l : List α, (insertLe le x l).Perm (x :: l) := by
  intro l
  induction l with
  | nil => simp [insertLe]
  | cons y ys ih =>
    by_cases h : le x y = true
    · simp [insertLe, h]
    · simp only [insertLe, h, if_false]
      exact (ih.cons y).trans (List.Perm.swap x y ys)

theorem sortLe_perm {α : Type u} (le : α → α → Bool) :
    ∀ l : List α, (sortLe le l).Perm l := by
  intro l
  induction l with
  | nil => simp [sortLe]
  | cons x xs ih =>
    exact (insertLe_perm le x (sortLe le xs)).trans (ih.cons x)

theorem insertLe_sorted (x : FName) (l : List FName)
    (h : l.Pairwise (fun a b => lexLe a b = true)) :
    (insertLe lexLe x l).Pairwise (fun a b => lexLe a b = true) := by
  induction l with
  | nil => simp [insertLe]
  | cons y ys ih =>
    rw [List.pairwise_cons] at h
    by_cases hxy : lexLe x y = true
    · simp only [insertLe, hxy, if_true]
      rw [List.pairwise_cons]
      constructor
      · intro z hz
        rcases List.mem_cons.mp hz with hz | hz
        · subst hz; exact hxy
        · exact lexLe_trans hxy (h.1 z hz)
      · rw [List.pairwise_cons]
        exact h
    · have hyx : lexLe y x = true := by
        rcases lexLe_total x y with h' | h'
        · exact absurd h' hxy
        · exact h'
      have hins : insertLe lexLe x (y :: ys) = y :: insertLe lexLe x ys := by
        simp [insertLe, hxy]
      rw [hins, List.pairwise_cons]
      constructor
      · intro z hz
        have hmem := (insertLe_perm lexLe x ys).mem_iff.mp hz
        rcases List.mem_cons.mp hmem with hz' | hz'
        · subst hz'; exact hyx
        · exact h.1 z hz'
      · exact ih h.2

theorem sortLe_sorted (l : List FName) :
    (sortLe lexLe l).Pairwise (fun a b => lexLe a b = true) := by
  induction l with
  | nil => simp [sortLe]
  | cons x xs ih => exact insertLe_sorted x (sortLe lexLe xs) ih

theorem sortLe_mem {x : FName} {l : List FName} :
    x ∈ sortLe lexLe l ↔ x ∈ l :=
  (sortLe_perm lexLe l).mem_iff

theorem sortLe_length (l : List FName) : (sortLe lexLe l).length = l.length :=
  (sortLe_perm lexLe l).length_eq

/-! Helper lemmas about underscore splitting and joining. -/

theorem splitUnd_ne_nil (s : List Char) : splitUnd s ≠ [] := by
  cases s with
  | nil => simp [splitUnd]
  | cons c rest =>
    simp only [splitUnd]
    split
    · simp
    · split <;> simp

theorem joinUnd_splitUnd (s : List Char) : joinUnd (splitUnd s) = s := by
  induction s with
  | nil => simp [splitUnd, joinUnd]
  | cons c rest ih =>
    by_cases h : c = '_'
    · subst h
      have h2 : splitUnd ('_' :: rest) = [] :: splitUnd rest := by
        simp [splitUnd]
      rw [h2]
      cases hs : splitUnd rest with
      | nil => exact absurd hs (splitUnd_ne_nil rest)
      | cons p ps =>
        rw [hs] at ih
        simp [joinUnd, ih]
    · cases hs : splitUnd rest with
      | nil => exact absurd hs (splitUnd_ne_nil rest)
      | cons p ps =>
        have h2 : splitUnd (c :: rest) = (c :: p) :: ps := by
          simp [splitUnd, h, hs]
        rw [hs] at ih
        rw [h2]
        cases ps with
        | nil =>
          simp only [joinUnd] at ih ⊢
          simp [ih]
        | cons q ps' =>
          simp only [joinUnd] at ih ⊢
          simp [ih]

theorem getLastD_irrel {α : Type u} {l : List α} (h : l ≠ []) (a b : α) :
    l.getLastD a = l.getLastD b := by
  cases l with
  | nil => exact absurd rfl h
  | cons x xs => simp only [List.getLastD_cons]

theorem splitUnd_two_le {s : List Char} (h : '_' ∈ s) :
    2 ≤ (splitUnd s).length := by
  induction s with
  | nil => simp at h
  | cons c rest ih =>
    by_cases hc : c = '_'
    · subst hc
      have h2 : splitUnd ('_' :: rest) = [] :: splitUnd rest := by
        simp [splitUnd]
      rw [h2]
      have := splitUnd_ne_nil rest
      have : 1 ≤ (splitUnd rest).length := by
        cases hs : splitUnd rest with
        | nil => exact absurd hs (splitUnd_ne_nil rest)
        | cons p ps => simp
      simp
      omega
    · have hr : '_' ∈ rest := by
        rcases List.mem_cons.mp h with h' | h'
        · exact absurd h'.symm hc
        · exact h'
      cases hs : splitUnd rest with
      | nil => exact absurd hs (splitUnd_ne_nil rest)
      | cons p ps =>
        have h2 : splitUnd (c :: rest) = (c :: p) :: ps := by
          simp [splitUnd, hc, hs]
        rw [h2]
        have := ih hr
        rw [hs] at this
        simp at this ⊢
        omega

theorem joinUnd_decomp (l : List (List Char)) (h : 2 ≤ l.length) :
    joinUnd l = joinUnd l.dropLast ++ '_' :: l.getLastD [] := by
  induction l with
  | nil => simp at h
  | cons p l' ih =>
    cases l' with
    | nil => simp at h
    | cons q ps =>
      cases ps with
      | nil => simp [joinUnd, List.getLastD_cons]
      | cons r rs =>
        have h2 : 2 ≤ (q :: r :: rs).length := by simp
        have ihh := ih h2
        have e1 : joinUnd (p :: q :: r :: rs) = p ++ '_' :: joinUnd (q :: r :: rs) := by
          simp [joinUnd]
        have e2 : (p :: q :: r :: rs).dropLast = p :: (q :: r :: rs).dropLast := by
          simp
        have e3 : (q :: r :: rs).dropLast ≠ [] := by
          simp
        have e4 : joinUnd (p :: (q :: r :: rs).dropLast) =
            p ++ '_' :: joinUnd ((q :: r :: rs).dropLast) := by
          cases hd : (q :: r :: rs).dropLast with
          | nil => exact absurd hd e3
          | cons a as => simp [joinUnd]
        have e5 : (p :: q :: r :: rs).getLastD [] = (q :: r :: rs).getLastD [] := by
          rw [List.getLastD_cons]
          exact getLastD_irrel (by simp) p []
        rw [e1, ihh, e2, e4, e5]
        simp

theorem und_decomp (s : List Char) (h : '_' ∈ s) :
    s = beforeLastJoined s ++ '_' :: lastTok s := by
  have h2 := splitUnd_two_le h
  have h3 := joinUnd_decomp (splitUnd s) h2
  rw [joinUnd_splitUnd] at h3
  exact h3

theorem splitUnd_no_und {s : List Char} (h : '_' ∉ s) : splitUnd s = [s] := by
  induction s with
  | nil => simp [splitUnd]
  | cons c rest ih =>
    have hc : ¬(c = '_') := by
      intro h'
      exact h (by simp [h'])
    have hr : '_' ∉ rest := by
      intro h'
      exact h (by simp [h'])
    simp [splitUnd, hc, ih hr]

theorem lastTok_no_und' {s : List Char} (h : '_' ∉ s) : lastTok s = s := by
  unfold lastTok
  rw [splitUnd_no_und h]
  rfl

theorem lastTok_no_und (s : List Char) : '_' ∉ lastTok s := by
  induction s with
  | nil => simp [lastTok, splitUnd, List.getLastD]
  | cons c rest ih =>
    by_cases hc : c = '_'
    · subst hc
      have h2 : splitUnd ('_' :: rest) = [] :: splitUnd rest := by
        simp [splitUnd]
      unfold lastTok at *
      rw [h2, List.getLastD_cons]
      rw [getLastD_irrel (splitUnd_ne_nil rest) [] []] at *
      exact ih
    · cases hs : splitUnd rest with
      | nil => exact absurd hs (splitUnd_ne_nil rest)
      | cons p ps =>
        have h2 : splitUnd (c :: rest) = (c :: p) :: ps := by
          simp [splitUnd, hc, hs]
        unfold lastTok at *
        rw [h2, List.getLastD_cons]
        rw [hs, List.getLastD_cons] at ih
        cases ps with
        | nil =>
          simp only [List.getLastD] at ih ⊢
          intro hmem
          rcases List.mem_cons.mp hmem with h' | h'
          · exact hc h'.symm
          · exact ih h'
        | cons q qs =>
          rw [getLastD_irrel (by simp) (c :: p) q] at *
          rw [getLastD_irrel (by simp) p q] at ih
          exact ih

theorem lastTok_append_und (xs ys : List Char) :
    lastTok (xs ++ '_' :: ys) = lastTok ys := by
  induction xs with
  | nil =>
    have h2 : splitUnd ('_' :: ys) = [] :: splitUnd ys := by
      simp [splitUnd]
    unfold lastTok
    simp only [List.nil_append]
    rw [h2, List.getLastD_cons]
  | cons c xs' ih =>
    by_cases hc : c = '_'
    · subst hc
      have h2 : splitUnd ('_' :: (xs' ++ '_' :: ys)) = [] :: splitUnd (xs' ++ '_' :: ys) := by
        simp [splitUnd]
      unfold lastTok at *
      simp only [List.cons_append]
      rw [h2, List.getLastD_cons,
        getLastD_irrel (splitUnd_ne_nil (xs' ++ '_' :: ys)) [] []]
      exact ih
    · cases hs : splitUnd (xs' ++ '_' :: ys) with
      | nil => exact absurd hs (splitUnd_ne_nil _)
      | cons p ps =>
        have hps : ps ≠ [] := by
          have := splitUnd_two_le (s := xs' ++ '_' :: ys) (by simp)
          rw [hs] at this
          simp at this
          intro h'
          rw [h'] at this
          simp at this
        have h2 : splitUnd (c :: (xs' ++ '_' :: ys)) = (c :: p) :: ps := by
          simp [splitUnd, hc, hs]
        unfold lastTok at *
        simp only [List.cons_append]
        rw [h2, List.getLastD_cons, getLastD_irrel hps (c :: p) p]
        rw [hs, List.getLastD_cons] at ih
        exact ih

/-! Helper lemmas about takeWhile, dropWhile and drop on decomposed lists. -/

theorem takeWhile_append_stop {p : Char → Bool} :
    ∀ (xs : List Char) (y : Char) (ys : List Char),
      (∀ c ∈ xs, p c = true) → p y = false →
      (xs ++ y :: ys).takeWhile p = xs := by
  intro xs
  induction xs with
  | nil =>
    intro y ys _ hy
    simp [List.takeWhile_cons, hy]
  | cons x xs' ih =>
    intro y ys hall hy
    have hx : p x = true := hall x (by simp)
    simp only [List.cons_append, List.takeWhile_cons, hx, if_true]
    rw [ih y ys (fun c hc => hall c (by simp [hc])) hy]

theorem dropWhile_append_stop {p : Char → Bool} :
    ∀ (xs : List Char) (y : Char) (ys : List Char),
      (∀ c ∈ xs, p c = true) → p y = false →
      (xs ++ y :: ys).dropWhile p = y :: ys := by
  intro xs
  induction xs with
  | nil =>
    intro y ys _ hy
    simp [List.dropWhile_cons, hy]
  | cons x xs' ih =>
    intro y ys hall hy
    have hx : p x = true := hall x (by simp)
    simp only [List.cons_append, List.dropWhile_cons, hx, if_true]
    exact ih y ys (fun c hc => hall c (by simp [hc])) hy

theorem drop_append_cons {α : Type u} (xs : List α) (y : α) (ys : List α) :
    (xs ++ y :: ys).drop (xs.length + 1) = ys := by
  induction xs with
  | nil => simp
  | cons x xs' ih =>
    simp only [List.cons_append, List.length_cons, List.drop_succ_cons]
    exact ih

/-! Shape lemmas for pathlib stem and suffix. -/

theorem pySuffix_shape (name : FName) (h : pySuffix name ≠ []) :
    ∃ t, pySuffix name = '.' :: t ∧ t ≠ [] ∧ '.' ∉ t := by
  unfold pySuffix at h ⊢
  split at h
  · exact absurd rfl h
  · rename_i hcond
    rw [if_neg hcond]
    refine ⟨(name.reverse.takeWhile (fun c => !(c = '.'))).reverse, rfl, ?_, ?_⟩
    · intro h'
      apply hcond
      left
      rw [← List.length_reverse _]
      rw [h']
      rfl
    · intro h'
      have := List.mem_takeWhile_imp (List.mem_reverse.mp h')
      simp at this

theorem pyStem_append_dot (A t : List Char) (hA : A ≠ []) (ht : t ≠ [])
    (hdot : '.' ∉ t) : pyStem (A ++ '.' :: t) = A := by
  unfold pyStem
  have hr : (A ++ '.' :: t).reverse = t.reverse ++ '.' :: A.reverse := by
    simp
  have htw : ((A ++ '.' :: t).reverse).takeWhile (fun c => !(c = '.')) = t.reverse := by
    rw [hr]
    apply takeWhile_append_stop
    · intro c hc
      have hc' := List.mem_reverse.mp hc
      have : ¬(c = '.') := fun h' => hdot (h' ▸ hc')
      simp [this]
    · simp
  rw [htw]
  have hlen : t.reverse.length = t.length := List.length_reverse t
  have hane : 1 ≤ A.length := by
    cases A with
    | nil => exact absurd rfl hA
    | cons a as => simp
  have htne : 1 ≤ t.length := by
    cases t with
    | nil => exact absurd rfl ht
    | cons a as => simp
  have hcond : ¬(t.reverse.length = 0 ∨ (A ++ '.' :: t).length - 1 ≤ t.reverse.length) := by
    push_neg
    constructor
    · omega
    · simp [hlen]
      omega
  rw [if_neg hcond, hr, drop_append_cons, List.reverse_reverse]

theorem pySuffix_append_dot (A t : List Char) (hA : A ≠ []) (ht : t ≠ [])
    (hdot : '.' ∉ t) : pySuffix (A ++ '.' :: t) = '.' :: t := by
  unfold pySuffix
  have hr : (A ++ '.' :: t).reverse = t.reverse ++ '.' :: A.reverse := by
    simp
  have htw : ((A ++ '.' :: t).reverse).takeWhile (fun c => !(c = '.')) = t.reverse := by
    rw [hr]
    apply takeWhile_append_stop
    · intro c hc
      have hc' := List.mem_reverse.mp hc
      have : ¬(c = '.') := fun h' => hdot (h' ▸ hc')
      simp [this]
    · simp
  rw [htw]
  have hlen : t.reverse.length = t.length := List.length_reverse t
  have hane : 1 ≤ A.length := by
    cases A with
    | nil => exact absurd rfl hA
    | cons a as => simp
  have htne : 1 ≤ t.length := by
    cases t with
    | nil => exact absurd rfl ht
    | cons a as => simp
  have hcond : ¬(t.reverse.length = 0 ∨ (A ++ '.' :: t).length - 1 ≤ t.reverse.length) := by
    push_neg
    constructor
    · omega
    · simp [hlen]
      omega
  rw [if_neg hcond]
  simp

/-! Helper lemmas about decimal formatting and Python int parsing. -/

theorem digitChar_props (d : Nat) :
    (digitChar d).isDigit = true ∧ (digitChar d).isWhitespace = false ∧
      digitChar d ≠ '_' ∧ digitChar d ≠ '.' ∧ digitChar d ≠ '-' ∧ digitChar d ≠ '+' := by
  unfold digitChar
  split <;> exact ⟨by decide, by decide, by decide, by decide, by decide, by decide⟩

theorem digitVal_digitChar {d : Nat} (h : d < 10) : digitVal (digitChar d) = d := by
  interval_cases d <;> decide

theorem natDigitsAux_mem (fuel : Nat) : ∀ (n : Nat), ∀ c ∈ natDigitsAux fuel n,
    c.isDigit = true ∧ c.isWhitespace = false ∧
      c ≠ '_' ∧ c ≠ '.' ∧ c ≠ '-' ∧ c ≠ '+' := by
  induction fuel with
  | zero =>
    intro n c hc
    cases n <;> simp [natDigitsAux] at hc
  | succ f ih =>
    intro n c hc
    cases n with
    | zero => simp [natDigitsAux] at hc
    | succ m =>
      simp only [natDigitsAux, List.mem_cons] at hc
      rcases hc with hc | hc
      · subst hc
        exact digitChar_props _
      · exact ih _ c hc

theorem natDigits_mem (n : Nat) : ∀ c ∈ natDigits n,
    c.isDigit = true ∧ c.isWhitespace = false ∧
      c ≠ '_' ∧ c ≠ '.' ∧ c ≠ '-' ∧ c ≠ '+' := by
  intro c hc
  unfold natDigits at hc
  by_cases h : n = 0
  · rw [if_pos h] at hc
    simp at hc
    subst hc
    exact ⟨by decide, by decide, by decide, by decide, by decide, by decide⟩
  · rw [if_neg h] at hc
    exact natDigitsAux_mem n n c (List.mem_reverse.mp hc)

theorem natDigits_ne_nil (n : Nat) : natDigits n ≠ [] := by
  unfold natDigits
  by_cases h : n = 0
  · simp [h]
  · rw [if_neg h]
    cases n with
    | zero => exact absurd rfl h
    | succ m => simp [natDigitsAux]

theorem padZeros_mem {l : List Char} (w : Nat)
    (h : ∀ c ∈ l, c.isDigit = true ∧ c.isWhitespace = false ∧
      c ≠ '_' ∧ c ≠ '.' ∧ c ≠ '-' ∧ c ≠ '+') :
    ∀ c ∈ padZeros l w, c.isDigit = true ∧ c.isWhitespace = false ∧
      c ≠ '_' ∧ c ≠ '.' ∧ c ≠ '-' ∧ c ≠ '+' := by
  intro c hc
  unfold padZeros at hc
  rcases List.mem_append.mp hc with hc | hc
  · have := List.eq_of_mem_replicate hc
    subst this
    exact ⟨by decide, by decide, by decide, by decide, by decide, by decide⟩
  · exact h c hc

theorem padZeros_ne_nil {l : List Char} (w : Nat) (h : l ≠ []) :
    padZeros l w ≠ [] := by
  unfold padZeros
  simp [h]

theorem foldVal_aux (fuel : Nat) : ∀ (n : Nat), n ≤ fuel → ∀ (a : Nat),
    List.foldl (fun a c => if c = '_' then a else a * 10 + digitVal c) a
      ((natDigitsAux fuel n).reverse)
    = a * 10 ^ (natDigitsAux fuel n).length + n := by
  induction fuel with
  | zero =>
    intro n hn a
    interval_cases n
    simp [natDigitsAux]
  | succ f ih =>
    intro n hn a
    cases n with
    | zero => simp [natDigitsAux]
    | succ m =>
      have hq : (m + 1) / 10 ≤ f := by
        have := Nat.div_lt_self (Nat.succ_pos m) (by norm_num : 1 < 10)
        omega
      have e1 : natDigitsAux (f + 1) (m + 1)
          = digitChar ((m + 1) % 10) :: natDigitsAux f ((m + 1) / 10) := by
        simp [natDigitsAux]
      rw [e1, List.reverse_cons, List.foldl_append, ih ((m + 1) / 10) hq a]
      have hne : ¬(digitChar ((m + 1) % 10) = '_') := (digitChar_props _).2.2.1
      simp only [List.foldl_cons, List.foldl_nil, if_neg hne, List.length_cons]
      rw [digitVal_digitChar (Nat.mod_lt _ (by norm_num))]
      have hdm := Nat.div_add_mod (m + 1) 10
      rw [pow_succ]
      set L := (natDigitsAux f ((m + 1) / 10)).length
      set q := (m + 1) / 10
      set r := (m + 1) % 10
      calc (a * 10 ^ L + q) * 10 + r = a * (10 ^ L * 10) + (10 * q + r) := by ring
        _ = a * (10 ^ L * 10) + (m + 1) := by rw [hdm]

theorem digitsFoldVal_natDigits (n : Nat) : digitsFoldVal (natDigits n) = n := by
  unfold digitsFoldVal natDigits
  by_cases h : n = 0
  · subst h; decide
  · rw [if_neg h]
    have := foldVal_aux n n (le_refl n) 0
    rw [this]
    simp

theorem digitsFoldVal_padZeros (l : List Char) (w : Nat) :
    digitsFoldVal (padZeros l w) = digitsFoldVal l := by
  unfold digitsFoldVal padZeros
  generalize w - l.length = k
  induction k with
  | zero => simp
  | succ j ih =>
    rw [List.replicate_succ, List.cons_append, List.foldl_cons]
    have : (if '0' = '_' then 0 else 0 * 10 + digitVal '0') = 0 := by decide
    rw [this]
    exact ih

theorem validDigitsTail_of_all : ∀ (l : List Char),
    (∀ c ∈ l, c.isDigit = true) → validDigitsTail l = true
  | [] => fun _ => rfl
  | [c] => fun h => by
    have hc : c.isDigit = true := h c (by simp)
    have hcu : ¬(c = '_') := by
      intro h'
      rw [h'] at hc
      exact absurd hc (by decide)
    simp [validDigitsTail, hcu, hc]
  | c :: c2 :: rest => fun h => by
    have hc : c.isDigit = true := h c (by simp)
    have hcu : ¬(c = '_') := by
      intro h'
      rw [h'] at hc
      exact absurd hc (by decide)
    simp only [validDigitsTail, if_neg hcu]
    rw [hc, validDigitsTail_of_all (c2 :: rest) (fun x hx => h x (by
      rcases List.mem_cons.mp hx with hx | hx
      · simp [hx]
      · simp [hx]))]
    rfl

theorem validDigitStr_of_all {l : List Char} (hne : l ≠ [])
    (h : ∀ c ∈ l, c.isDigit = true) : validDigitStr l = true := by
  cases l with
  | nil => exact absurd rfl hne
  | cons c rest =>
    simp only [validDigitStr]
    rw [h c (by simp), validDigitsTail_of_all rest (fun c' hc' => h c' (by simp [hc']))]
    rfl

theorem dropWhile_all_neg {p : Char → Bool} {s : List Char}
    (h : ∀ c ∈ s, p c = false) : s.dropWhile p = s := by
  cases s with
  | nil => rfl
  | cons c cs => simp [List.dropWhile_cons, h c (by simp)]

theorem stripWs_eq_self {s : List Char} (h : ∀ c ∈ s, c.isWhitespace = false) :
    stripWs s = s := by
  unfold stripWs
  rw [dropWhile_all_neg h,
    dropWhile_all_neg (fun c hc => h c (List.mem_reverse.mp hc)),
    List.reverse_reverse]

theorem pyParseInt_formatInt (n : Int) (w : Nat) :
    pyParseInt (formatInt n w) = some n := by
  by_cases hn : n < 0
  · have e1 : formatInt n w = '-' :: padZeros (natDigits (-n).toNat) (w - 1) := by
      simp [formatInt, hn]
    have hmem := padZeros_mem (l := natDigits (-n).toNat) (w - 1) (natDigits_mem _)
    have hws : ∀ c ∈ formatInt n w, c.isWhitespace = false := by
      intro c hc
      rw [e1] at hc
      rcases List.mem_cons.mp hc with hc | hc
      · subst hc; decide
      · exact (hmem c hc).2.1
    have hstrip := stripWs_eq_self hws
    rw [e1] at hstrip
    unfold pyParseInt
    rw [e1, hstrip]
    have hvd : validDigitStr (padZeros (natDigits (-n).toNat) (w - 1)) = true :=
      validDigitStr_of_all (padZeros_ne_nil _ (natDigits_ne_nil _))
        (fun c hc => (hmem c hc).1)
    simp only [reduceIte, hvd, if_pos]
    rw [digitsFoldVal_padZeros, digitsFoldVal_natDigits]
    have : ((- n).toNat : Int) = -n := Int.toNat_of_nonneg (by omega)
    rw [this]
    simp
  · have e1 : formatInt n w = padZeros (natDigits n.toNat) w := by
      simp [formatInt, hn]
    have hmem := padZeros_mem (l := natDigits n.toNat) w (natDigits_mem _)
    obtain ⟨c, rest, hcr⟩ : ∃ c rest,
        padZeros (natDigits n.toNat) w = c :: rest := by
      cases hpz : padZeros (natDigits n.toNat) w with
      | nil => exact absurd hpz (padZeros_ne_nil _ (natDigits_ne_nil _))
      | cons c rest => exact ⟨c, rest, rfl⟩
    have hcprops := hmem c (by rw [hcr]; simp)
    have hws : ∀ ch ∈ formatInt n w, ch.isWhitespace = false := by
      intro ch hc
      rw [e1] at hc
      exact (hmem ch hc).2.1
    have hstrip := stripWs_eq_self hws
    rw [e1, hcr] at hstrip
    unfold pyParseInt
    rw [e1, hcr, hstrip]
    have hvd : validDigitStr (c :: rest) = true := by
      rw [← hcr]
      exact validDigitStr_of_all (padZeros_ne_nil _ (natDigits_ne_nil _))
        (fun ch hc => (hmem ch hc).1)
    have hc1 : ¬(c = '-') := hcprops.2.2.2.2.1
    have hc2 : ¬(c = '+') := hcprops.2.2.2.2.2
    simp only [if_neg hc1, if_neg hc2, hvd, if_pos]
    rw [← hcr, digitsFoldVal_padZeros, digitsFoldVal_natDigits]
    have : ((n.toNat : Int)) = n := Int.toNat_of_nonneg (by omega)
    rw [this]

/-! Helper lemmas about pattern matching, generated names and the allocator. -/

theorem leadsWith_append (xs ys : List Char) : leadsWith xs (xs ++ ys) = true := by
  induction xs with
  | nil => rfl
  | cons x xs' ih => simp [leadsWith, ih]

theorem matchPat_mkName (base s : FName) (n : Int) (w : Nat) :
    matchPat base s (mkName base n w s) = true := by
  unfold matchPat mkName
  have h1 : leadsWith (base ++ ['_']) (base ++ '_' :: (formatInt n w ++ s)) = true := by
    rw [show base ++ '_' :: (formatInt n w ++ s)
        = (base ++ ['_']) ++ (formatInt n w ++ s) by simp]
    exact leadsWith_append _ _
  have h2 : trailsWith s (base ++ '_' :: (formatInt n w ++ s)) = true := by
    unfold trailsWith
    rw [show base ++ '_' :: (formatInt n w ++ s)
        = (base ++ '_' :: formatInt n w) ++ s by simp]
    rw [List.reverse_append]
    exact leadsWith_append _ _
  rw [h1, h2]
  simp [List.length_append]
  omega

theorem formatInt_mem {c : Char} {n : Int} {w : Nat} (hc : c ∈ formatInt n w) :
    c.isWhitespace = false ∧ c ≠ '_' ∧ c ≠ '.' := by
  unfold formatInt at hc
  split at hc
  · rcases List.mem_cons.mp hc with hc | hc
    · subst hc
      exact ⟨by decide, by decide, by decide⟩
    · have := padZeros_mem _ (natDigits_mem _) c hc
      exact ⟨this.2.1, this.2.2.1, this.2.2.2.1⟩
  · have := padZeros_mem _ (natDigits_mem _) c hc
    exact ⟨this.2.1, this.2.2.1, this.2.2.2.1⟩

theorem tokenOf_mkName (base : FName) (n : Int) (w : Nat) (t : List Char)
    (ht : t ≠ []) (hdot : '.' ∉ t) :
    tokenOf (mkName base n w ('.' :: t)) = formatInt n w := by
  unfold tokenOf mkName
  have hA : (base ++ '_' :: formatInt n w) ≠ [] := by simp
  have e0 : base ++ '_' :: (formatInt n w ++ '.' :: t)
      = (base ++ '_' :: formatInt n w) ++ '.' :: t := by simp
  rw [e0, pyStem_append_dot _ _ hA ht hdot, lastTok_append_und,
    lastTok_no_und' (fun hmem => (formatInt_mem hmem).2.1 rfl)]

theorem parsedNum_mkName (base : FName) (n : Int) (w : Nat) (t : List Char)
    (ht : t ≠ []) (hdot : '.' ∉ t) :
    parsedNum (mkName base n w ('.' :: t)) = some n := by
  unfold parsedNum
  rw [tokenOf_mkName base n w t ht hdot]
  exact pyParseInt_formatInt n w

theorem foldl_max_ge_init : ∀ (vs : List Int) (v : Int), v ≤ vs.foldl max v := by
  intro vs
  induction vs with
  | nil => intro v; simp
  | cons w ws ih =>
    intro v
    calc v ≤ max v w := le_max_left v w
      _ ≤ ws.foldl max (max v w) := ih (max v w)

theorem foldl_max_ge_mem : ∀ (vs : List Int) (v : Int), ∀ x ∈ vs, x ≤ vs.foldl max v := by
  intro vs
  induction vs with
  | nil => intro v x hx; simp at hx
  | cons w ws ih =>
    intro v x hx
    rcases List.mem_cons.mp hx with hx | hx
    · subst hx
      calc x ≤ max v x := le_max_right v x
        _ ≤ ws.foldl max (max v x) := foldl_max_ge_init ws (max v x)
    · exact ih (max v w) x hx

theorem foldl_max_mem : ∀ (vs : List Int) (v : Int),
    vs.foldl max v = v ∨ vs.foldl max v ∈ vs := by
  intro vs
  induction vs with
  | nil => intro v; left; rfl
  | cons w ws ih =>
    intro v
    rcases ih (max v w) with h | h
    · rcases max_choice v w with h' | h'
      · left
        rw [List.foldl_cons, h, h']
      · right
        rw [List.foldl_cons, h, h']
        simp
    · right
      rw [List.foldl_cons]
      exact List.mem_cons_of_mem w h

theorem listMax_mem_le {l : List Int} {m : Int} (h : listMax l = some m) :
    m ∈ l ∧ ∀ x ∈ l, x ≤ m := by
  cases l with
  | nil => simp [listMax] at h
  | cons v vs =>
    simp only [listMax, Option.some.injEq] at h
    subst h
    constructor
    · rcases foldl_max_mem vs v with h | h
      · rw [h]; simp
      · exact List.mem_cons_of_mem v h
    · intro x hx
      rcases List.mem_cons.mp hx with hx | hx
      · subst hx; exact foldl_max_ge_init vs x
      · exact foldl_max_ge_mem vs v x hx

theorem listMax_eq_of {l : List Int} {m : Int} (hm : m ∈ l) (hle : ∀ x ∈ l, x ≤ m) :
    listMax l = some m := by
  cases l with
  | nil => simp at hm
  | cons v vs =>
    simp only [listMax, Option.some.injEq]
    have h1 : vs.foldl max v ≤ m := by
      rcases foldl_max_mem vs v with h | h
      · rw [h]; exact hle v (by simp)
      · exact hle _ (List.mem_cons_of_mem v h)
    have h2 : m ≤ vs.foldl max v := by
      rcases List.mem_cons.mp hm with hx | hx
      · subst hx; exact foldl_max_ge_init vs m
      · exact foldl_max_ge_mem vs v m hx
    omega

theorem filterMap_eq_map_of {α β : Type u} {f : α → Option β} {g : α → β} :
    ∀ {l : List α}, (∀ x ∈ l, f x = some (g x)) → l.filterMap f = l.map g := by
  intro l
  induction l with
  | nil => intro _; rfl
  | cons x xs ih =>
    intro h
    rw [List.filterMap_cons, h x (by simp), List.map_cons,
      ih (fun y hy => h y (by simp [hy]))]

theorem foldl_addFile_append : ∀ (new dest : List FName),
    (∀ nm ∈ new, nm ∉ dest) → new.Nodup →
    new.foldl addFile dest = dest ++ new := by
  intro new
  induction new with
  | nil => intro dest _ _; simp
  | cons nm new' ih =>
    intro dest hnin hnd
    have h1 : addFile dest nm = dest ++ [nm] := by
      unfold addFile
      rw [if_neg (hnin nm (by simp))]
    rw [List.foldl_cons, h1, ih (dest ++ [nm]) ?_ (List.nodup_cons.mp hnd).2]
    · simp
    · intro x hx
      intro hmem
      rcases List.mem_append.mp hmem with h' | h'
      · exact hnin x (by simp [hx]) h'
      · have : x = nm := by simpa using h'
        subst this
        exact (List.nodup_cons.mp hnd).1 hx

theorem foldl_parse_max : ∀ (l : List FName) (m : Int),
    l.foldl (fun m f => match parsedNum f with
      | some n => max m n
      | none => m) m
    = (l.filterMap parsedNum).foldl max m := by
  intro l
  induction l with
  | nil => intro m; rfl
  | cons f l' ih =>
    intro m
    rw [List.foldl_cons, List.filterMap_cons]
    cases hp : parsedNum f with
    | none => rw [ih]
    | some n =>
      rw [List.foldl_cons, ih]

theorem getRequiredDigits_empty {dest : List FName} {base suffix : FName}
    (h : dest.filter (matchPat base suffix) = []) :
    getRequiredDigits dest base suffix = 4 := by
  unfold getRequiredDigits
  rw [h]
  rfl

theorem getRequiredDigits_nonempty {dest : List FName} {base suffix : FName}
    (h : dest.filter (matchPat base suffix) ≠ []) :
    getRequiredDigits dest base suffix
      = max 4 (pyStrLen
          (((dest.filter (matchPat base suffix)).filterMap parsedNum).foldl max 0
           + (dest.filter (matchPat base suffix)).length)) := by
  unfold getRequiredDigits
  rw [if_neg (by simpa [List.isEmpty_iff] using h), foldl_parse_max]

theorem nextNum_all_some {dest : List FName} {base suffix : FName} {m : Int}
    (hall : (dest.filter (matchPat base suffix)).all
      (fun f => (parsedNum f).isSome) = true)
    (hmax : listMax ((dest.filter (matchPat base suffix)).filterMap parsedNum)
      = some m) :
    nextNum dest base suffix = m + 1 := by
  unfold nextNum
  rw [if_pos hall, hmax]

theorem nextNum_empty {dest : List FName} {base suffix : FName}
    (h : dest.filter (matchPat base suffix) = []) :
    nextNum dest base suffix = 1 := by
  unfold nextNum
  rw [h]
  rfl

theorem nextNum_not_all {dest : List FName} {base suffix : FName}
    (h : ¬ (dest.filter (matchPat base suffix)).all
      (fun f => (parsedNum f).isSome) = true) :
    nextNum dest base suffix = 1 := by
  unfold nextNum
  rw [if_neg h]

/-! Helper lemmas about Python min with key and the by-date grouping dict. -/

theorem foldl_minBy {α : Type u} (key : α → Nat) :
    ∀ (xs : List α) (x : α),
      (xs.foldl (fun best y => if key y < key best then y else best) x) ∈ x :: xs ∧
      key (xs.foldl (fun best y => if key y < key best then y else best) x) ≤ key x ∧
      ∀ y ∈ xs, key (xs.foldl (fun best y => if key y < key best then y else best) x) ≤ key y := by
  intro xs
  induction xs with
  | nil =>
    intro x
    refine ⟨by simp, le_refl _, by simp⟩
  | cons y ys ih =>
    intro x
    have hx' := ih (if key y < key x then y else x)
    rcases hx' with ⟨hmem, hle, hall⟩
    have hle_x : key (if key y < key x then y else x) ≤ key x := by
      split
      · omega
      · exact le_refl _
    have hle_y : key (if key y < key x then y else x) ≤ key y := by
      split
      · exact le_refl _
      · omega
    refine ⟨?_, ?_, ?_⟩
    · rw [List.foldl_cons]
      rcases List.mem_cons.mp hmem with h | h
      · rw [h]
        split
        · simp
        · simp
      · simp [h]
    · rw [List.foldl_cons]
      exact le_trans hle hle_x
    · intro z hz
      rw [List.foldl_cons]
      rcases List.mem_cons.mp hz with h | h
      · subst h
        exact le_trans hle hle_y
      · exact hall z h

theorem pyMinBy_spec {α : Type u} (key : α → Nat) {l : List α} (h : l ≠ []) :
    ∃ m, pyMinBy key l = some m ∧ m ∈ l ∧ ∀ x ∈ l, key m ≤ key x := by
  cases l with
  | nil => exact absurd rfl h
  | cons x xs =>
    rcases foldl_minBy key xs x with ⟨hmem, hle, hall⟩
    refine ⟨_, rfl, hmem, ?_⟩
    intro z hz
    rcases List.mem_cons.mp hz with h' | h'
    · subst h'; exact hle
    · exact hall z h'

theorem firstKeys_snoc (ks : List (Nat × Nat × Nat)) (k : Nat × Nat × Nat) :
    firstKeys (ks ++ [k])
      = if k ∈ firstKeys ks then firstKeys ks else firstKeys ks ++ [k] := by
  unfold firstKeys
  rw [List.foldl_append]
  rfl

theorem firstKeys_mem_aux : ∀ (ks : List (Nat × Nat × Nat))
    (acc : List (Nat × Nat × Nat)) (x : Nat × Nat × Nat),
    (x ∈ ks.foldl (fun acc k => if k ∈ acc then acc else acc ++ [k]) acc
      ↔ x ∈ acc ∨ x ∈ ks) := by
  intro ks
  induction ks with
  | nil => intro acc x; simp
  | cons k ks' ih =>
    intro acc x
    rw [List.foldl_cons, ih]
    by_cases hk : k ∈ acc
    · rw [if_pos hk]
      constructor
      · rintro (h | h)
        · exact Or.inl h
        · exact Or.inr (List.mem_cons_of_mem k h)
      · rintro (h | h)
        · exact Or.inl h
        · rcases List.mem_cons.mp h with h' | h'
          · subst h'; exact Or.inl hk
          · exact Or.inr h'
    · rw [if_neg hk]
      constructor
      · rintro (h | h)
        · rcases List.mem_append.mp h with h' | h'
          · exact Or.inl h'
          · right
            have : x = k := by simpa using h'
            simp [this]
        · exact Or.inr (List.mem_cons_of_mem k h)
      · rintro (h | h)
        · exact Or.inl (List.mem_append.mpr (Or.inl h))
        · rcases List.mem_cons.mp h with h' | h'
          · exact Or.inl (List.mem_append.mpr (Or.inr (by simp [h'])))
          · exact Or.inr h'

theorem firstKeys_mem {ks : List (Nat × Nat × Nat)} {x : Nat × Nat × Nat} :
    x ∈ firstKeys ks ↔ x ∈ ks := by
  unfold firstKeys
  rw [firstKeys_mem_aux]
  simp

theorem firstKeys_nodup_aux : ∀ (ks : List (Nat × Nat × Nat))
    (acc : List (Nat × Nat × Nat)), acc.Nodup →
    (ks.foldl (fun acc k => if k ∈ acc then acc else acc ++ [k]) acc).Nodup := by
  intro ks
  induction ks with
  | nil => intro acc h; exact h
  | cons k ks' ih =>
    intro acc h
    rw [List.foldl_cons]
    apply ih
    by_cases hk : k ∈ acc
    · rw [if_pos hk]; exact h
    · rw [if_neg hk]
      rw [List.nodup_append]
      refine ⟨h, by simp, ?_⟩
      intro a ha hb
      have : a = k := by simpa using hb
      subst this
      exact hk ha

theorem firstKeys_nodup (ks : List (Nat × Nat × Nat)) : (firstKeys ks).Nodup :=
  firstKeys_nodup_aux ks [] (by simp)

theorem groupUpd_canon (K : List (Nat × Nat × Nat))
    (g : (Nat × Nat × Nat) → List (FName × DateTime)) (hK : K.Nodup)
    (k : Nat × Nat × Nat) (it : FName × DateTime) :
    groupUpd (K.map (fun d => (d, g d))) k it =
      if k ∈ K then K.map (fun d => (d, if d = k then g d ++ [it] else g d))
      else K.map (fun d => (d, g d)) ++ [(k, [it])] := by
  induction K with
  | nil => simp [groupUpd]
  | cons d K' ih =>
    rcases List.nodup_cons.mp hK with ⟨hd, hK'⟩
    by_cases hdk : d = k
    · subst hdk
      have e1 : groupUpd ((d :: K').map (fun d' => (d', g d'))) d it
          = (d, g d ++ [it]) :: K'.map (fun d' => (d', g d')) := by
        simp [groupUpd]
      rw [e1, if_pos (by simp)]
      rw [List.map_cons, if_pos rfl]
      congr 1
      apply List.map_congr_left
      intro a ha
      rw [if_neg]
      intro h'
      subst h'
      exact hd ha
    · have e1 : groupUpd ((d :: K').map (fun d' => (d', g d'))) k it
          = (d, g d) :: groupUpd (K'.map (fun d' => (d', g d'))) k it := by
        simp [groupUpd, hdk]
      rw [e1, ih hK']
      by_cases hk : k ∈ K'
      · rw [if_pos hk, if_pos (List.mem_cons_of_mem d hk)]
        rw [List.map_cons, if_neg hdk]
      · rw [if_neg hk, if_neg (by
          intro h'
          rcases List.mem_cons.mp h' with h'' | h''
          · exact hdk h''.symm
          · exact hk h'')]
        simp

theorem groupFold_canon (resolve : FName → DateTime) (files : List FName) :
    groupFold resolve files =
      (firstKeys (files.map (fun p => (resolve p).dateOf))).map
        (fun d => (d, (files.filter
          (fun p => decide ((resolve p).dateOf = d))).map (fun p => (p, resolve p)))) := by
  induction files using List.reverseRecOn with
  | nil => simp [groupFold, firstKeys]
  | append_singleton files f ih =>
    have e1 : groupFold resolve (files ++ [f])
        = groupUpd (groupFold resolve files) (resolve f).dateOf (f, resolve f) := by
      unfold groupFold
      rw [List.foldl_append]
      rfl
    rw [e1, ih]
    rw [groupUpd_canon _ _ (firstKeys_nodup _)]
    have e2 : (files ++ [f]).map (fun p => (resolve p).dateOf)
        = files.map (fun p => (resolve p).dateOf) ++ [(resolve f).dateOf] := by
      simp
    rw [e2, firstKeys_snoc]
    by_cases hk : (resolve f).dateOf ∈ firstKeys (files.map (fun p => (resolve p).dateOf))
    · rw [if_pos hk, if_pos hk]
      apply List.map_congr_left
      intro d hd
      by_cases hdk : d = (resolve f).dateOf
      · subst hdk
        rw [if_pos rfl]
        rw [List.filter_append]
        have e3 : [f].filter
            (fun p => decide ((resolve p).dateOf = (resolve f).dateOf)) = [f] := by
          simp
        rw [e3, List.map_append]
        simp
      · rw [if_neg hdk]
        rw [List.filter_append]
        have e3 : [f].filter (fun p => decide ((resolve p).dateOf = d)) = [] := by
          simp
          intro h'
          exact hdk h'.symm
        rw [e3, List.append_nil]
    · rw [if_neg hk, if_neg hk, List.map_append]
      congr 1
      · apply List.map_congr_left
        intro d hd
        rw [List.filter_append]
        have hdk : ¬ ((resolve f).dateOf = d) := by
          intro h'
          rw [h'] at hk
          exact hk hd
        have e3 : [f].filter (fun p => decide ((resolve p).dateOf = d)) = [] := by
          simp [hdk]
        rw [e3, List.append_nil]
      · have e4 : files.filter (fun p => decide ((resolve p).dateOf = (resolve f).dateOf)) = [] := by
          rw [List.filter_eq_nil_iff]
          intro p hp
          simp only [decide_eq_true_eq]
          intro h'
          apply hk
          rw [firstKeys_mem]
          rw [← h']
          exact List.mem_map_of_mem (fun p => (resolve p).dateOf) hp
        simp [e4]

theorem sampleClosestToTime_spec (listing : List FName) (resolve : FName → DateTime)
    (target : Time) :
    ∃ pick : (Nat × Nat × Nat) → FName,
      (∀ d ∈ firstKeys ((listing.filter isSupported).map (fun p => (resolve p).dateOf)),
        pick d ∈ listing.filter isSupported ∧ (resolve (pick d)).dateOf = d ∧
        ∀ q ∈ listing.filter isSupported, (resolve q).dateOf = d →
          minuteDist (resolve (pick d)) target ≤ minuteDist (resolve q) target) ∧
      sampleClosestToTime listing resolve target =
        sortLe lexLe ((firstKeys ((listing.filter isSupported).map
          (fun p => (resolve p).dateOf))).map pick) := by
  refine ⟨fun d => (((pyMinBy (fun x => minuteDist x.2 target)
    (((listing.filter isSupported).filter
      (fun p => decide ((resolve p).dateOf = d))).map
        (fun p => (p, resolve p)))).map Prod.fst).getD []), ?_, ?_⟩
  case _ =>
    intro d hd
    have hne : ((listing.filter isSupported).filter
        (fun p => decide ((resolve p).dateOf = d))).map
          (fun p => (p, resolve p)) ≠ [] := by
      have hd' := firstKeys_mem.mp hd
      rcases List.mem_map.mp hd' with ⟨p, hp, hpe⟩
      have : p ∈ (listing.filter isSupported).filter
          (fun p => decide ((resolve p).dateOf = d)) := by
        rw [List.mem_filter]
        exact ⟨hp, by simp [hpe]⟩
      intro hcon
      rw [List.map_eq_nil_iff] at hcon
      rw [hcon] at this
      simp at this
    rcases pyMinBy_spec (fun x => minuteDist x.2 target) hne with ⟨m, hmeq, hmmem, hmmin⟩
    rcases List.mem_map.mp hmmem with ⟨p, hp, hpe⟩
    have hpick : (((pyMinBy (fun x => minuteDist x.2 target)
        (((listing.filter isSupported).filter
          (fun p => decide ((resolve p).dateOf = d))).map
            (fun p => (p, resolve p)))).map Prod.fst).getD []) = p := by
      rw [hmeq, ← hpe]
      rfl
    beta_reduce
    rw [hpick]
    have hpf := List.mem_filter.mp hp
    refine ⟨hpf.1, by simpa using hpf.2, ?_⟩
    intro q hq hqd
    have hqmem : (q, resolve q) ∈ ((listing.filter isSupported).filter
        (fun p => decide ((resolve p).dateOf = d))).map (fun p => (p, resolve p)) := by
      apply List.mem_map_of_mem
      rw [List.mem_filter]
      exact ⟨hq, by simp [hqd]⟩
    have := hmmin (q, resolve q) hqmem
    rw [← hpe] at this
    exact this
  case _ =>
    have e0 : sampleClosestToTime listing resolve target
        = sortLe lexLe ((groupFold resolve (listing.filter isSupported)).filterMap
          (fun g => (pyMinBy (fun x => minuteDist x.2 target) g.2).map Prod.fst)) := rfl
    rw [e0, groupFold_canon, List.filterMap_map]
    congr 1
    apply filterMap_eq_map_of
    intro d hd
    have hne : ((listing.filter isSupported).filter
        (fun p => decide ((resolve p).dateOf = d))).map
          (fun p => (p, resolve p)) ≠ [] := by
      have hd' := firstKeys_mem.mp hd
      rcases List.mem_map.mp hd' with ⟨p, hp, hpe⟩
      have : p ∈ (listing.filter isSupported).filter
          (fun p => decide ((resolve p).dateOf = d)) := by
        rw [List.mem_filter]
        exact ⟨hp, by simp [hpe]⟩
      intro hcon
      rw [List.map_eq_nil_iff] at hcon
      rw [hcon] at this
      simp at this
    rcases pyMinBy_spec (fun x => minuteDist x.2 target) hne with ⟨m, hmeq, hmmem, hmmin⟩
    simp only [Function.comp]
    rw [hmeq]
    simp

theorem pyStrLen_nonneg {m : Int} (h : 0 ≤ m) : pyStrLen m = digitCountNat m.toNat := by
  unfold pyStrLen
  rw [if_neg (by omega)]

/-! Claim theorems. -/

/-- Claim C4: for every source listing and stride n ≥ 1, sampleEveryNth
returns exactly the elements at positions 0, n, 2n, … of the
lexicographically sorted list of supported files — hence exactly ceil(N/n)
files, in sorted order. -/
theorem claimC4 (listing : List FName) (n : Int) (hn : 1 ≤ n) :
    ∃ out, sampleEveryNth listing n = .ok out ∧
      (∀ i, out.get? i
        = (sortLe lexLe (listing.filter isSupported)).get? (n.toNat * i)) ∧
      out.length = ((listing.filter isSupported).length + n.toNat - 1) / n.toNat ∧
      out.Pairwise (fun a b => lexLe a b = true) := by
  have hk : 1 ≤ n.toNat := by omega
  refine ⟨strideTake (sortLe lexLe (listing.filter isSupported)) n.toNat, ?_, ?_, ?_, ?_⟩
  · unfold sampleEveryNth pySlice
    rw [if_neg (by omega), if_pos (by omega)]
  · intro i
    exact strideTake_get? _ _ hk i
  · rw [strideTake_length _ _ hk, sortLe_length]
  · exact List.Pairwise.sublist (strideTake_sublist _ _) (sortLe_sorted _)

/-- Claim C4 witness: four files, stride 2. -/
theorem claimC4_witness :
    (1 : Int) ≤ 2 ∧
    (∃ out, sampleEveryNth
        ["b.jpg".toList, "a.jpg".toList, "c.txt".toList, "d.jpg".toList] 2 = .ok out ∧
      (∀ i, out.get? i
        = (sortLe lexLe ((["b.jpg".toList, "a.jpg".toList, "c.txt".toList,
            "d.jpg".toList]).filter isSupported)).get? ((2 : Int).toNat * i)) ∧
      out.length = (((["b.jpg".toList, "a.jpg".toList, "c.txt".toList,
          "d.jpg".toList]).filter isSupported).length + (2 : Int).toNat - 1)
            / (2 : Int).toNat ∧
      out.Pairwise (fun a b => lexLe a b = true)) :=
  ⟨by decide, claimC4 _ 2 (by decide)⟩

/-- Claim C5 counterexample: stride -1 on a two-image directory is not an
input-validation error; the code returns a normal (reversed) selection. -/
theorem claimC5_counterexample :
    sampleEveryNth ["a.jpg".toList, "b.jpg".toList] (-1)
      = .ok ["b.jpg".toList, "a.jpg".toList] := rfl

/-- Claim C5 amended: stride 0 raises ValueError; a negative stride is not an
error: Python slicing returns the stride selection over the reversed sorted
list, with ceil(N/|n|) elements. -/
theorem claimC5_amended (listing : List FName) (n : Int) :
    (n = 0 → sampleEveryNth listing n = .error .valueError) ∧
    (n < 0 → ∃ out, sampleEveryNth listing n = .ok out ∧
      out = strideTake (sortLe lexLe (listing.filter isSupported)).reverse (-n).toNat ∧
      out.length
        = ((listing.filter isSupported).length + (-n).toNat - 1) / (-n).toNat) := by
  constructor
  · intro h
    subst h
    unfold sampleEveryNth pySlice
    rw [if_pos rfl]
  · intro hneg
    refine ⟨_, ?_, rfl, ?_⟩
    · unfold sampleEveryNth pySlice
      rw [if_neg (by omega), if_neg (by omega)]
    · rw [strideTake_length _ _ (by omega), List.length_reverse, sortLe_length]

/-- Claim C5 witness: amended statement at stride -1. -/
theorem claimC5_witness :
    (-1 : Int) < 0 ∧
    (∃ out, sampleEveryNth ["a.jpg".toList] (-1) = .ok out ∧
      out = strideTake (sortLe lexLe (["a.jpg".toList].filter isSupported)).reverse
        (-(-1) : Int).toNat ∧
      out.length = ((["a.jpg".toList].filter isSupported).length
        + (-(-1) : Int).toNat - 1) / (-(-1) : Int).toNat) :=
  ⟨by decide, (claimC5_amended ["a.jpg".toList] (-1)).2 (by decide)⟩

/-- Claim C1 counterexample: destination {SM_9998.jpg}, batch of 5 files
about to be copied. The code computes 4 digits (it adds the count of
existing matches, 1), but the claim's formula max(4, digitCount(9998 + 5))
gives 5. -/
theorem claimC1_counterexample :
    getRequiredDigits ["SM_9998.jpg".toList] "SM".toList ".jpg".toList = 4 ∧
    max 4 (digitCountNat (9998 + 5)) = 5 ∧
    getRequiredDigits ["SM_9998.jpg".toList] "SM".toList ".jpg".toList
      ≠ max 4 (digitCountNat (9998 + 5)) := by decide

/-- Claim C1 amended: requiredDigits = max(4, digitCount(maxNum + countOfExistingMatches)),
where countOfExistingMatches is the number of files matching the glob in the
destination (not the size of the incoming batch), and the width is 4 when no
file matches. -/
theorem claimC1_amended (dest : List FName) (base suffix : FName) :
    (dest.filter (matchPat base suffix) = [] →
      getRequiredDigits dest base suffix = 4) ∧
    (dest.filter (matchPat base suffix) ≠ [] →
      getRequiredDigits dest base suffix
        = max 4 (digitCountNat
            ((((dest.filter (matchPat base suffix)).filterMap parsedNum).foldl max 0)
              + ((dest.filter (matchPat base suffix)).length : Int)).toNat)) := by
  constructor
  · intro h
    exact getRequiredDigits_empty h
  · intro h
    rw [getRequiredDigits_nonempty h]
    rw [pyStrLen_nonneg]
    have h0 : (0 : Int) ≤ ((dest.filter (matchPat base suffix)).filterMap parsedNum).foldl max 0 :=
      foldl_max_ge_init _ 0
    have h1 : (0 : Int) ≤ ((dest.filter (matchPat base suffix)).length : Int) := by positivity
    omega

/-- Claim C1 witness: amended statement at a destination with one match. -/
theorem claimC1_witness :
    ["SM_0007.jpg".toList].filter (matchPat "SM".toList ".jpg".toList) ≠ [] ∧
    getRequiredDigits ["SM_0007.jpg".toList] "SM".toList ".jpg".toList
      = max 4 (digitCountNat
          ((((["SM_0007.jpg".toList].filter (matchPat "SM".toList ".jpg".toList)).filterMap
              parsedNum).foldl max 0)
            + ((["SM_0007.jpg".toList].filter
                (matchPat "SM".toList ".jpg".toList)).length : Int)).toNat) :=
  ⟨by decide, (claimC1_amended ["SM_0007.jpg".toList] "SM".toList ".jpg".toList).2 (by decide)⟩

/-- Claim C3 counterexample: destination {SM_9998.jpg, SM_x.jpg}. The claim
says both scans compute the result from only the parseable entries (here
{SM_9998.jpg}, giving requiredDigits 4 and nextIndex 9999). In fact the
requiredDigits scan still counts the unparseable entry (giving 5), and the
nextIndex scan aborts its max computation and falls back to 1. -/
theorem claimC3_counterexample :
    getRequiredDigits ["SM_9998.jpg".toList, "SM_x.jpg".toList]
      "SM".toList ".jpg".toList = 5 ∧
    getRequiredDigits ["SM_9998.jpg".toList] "SM".toList ".jpg".toList = 4 ∧
    nextNum ["SM_9998.jpg".toList, "SM_x.jpg".toList] "SM".toList ".jpg".toList = 1 ∧
    nextNum ["SM_9998.jpg".toList] "SM".toList ".jpg".toList = 9999 := by decide

/-- Claim C3 amended: unparseable entries never raise out of either scan, but
they are not simply skipped: the requiredDigits scan skips them in the max
while still counting them in the added file count, and the nextIndex scan
falls back to nextIndex = 1 whenever any matching entry is unparseable, even
when other entries parse. With no matching entries, requiredDigits = 4 and
nextIndex = 1. -/
theorem claimC3_amended (dest : List FName) (base suffix : FName) :
    (dest.filter (matchPat base suffix) = [] →
      getRequiredDigits dest base suffix = 4 ∧ nextNum dest base suffix = 1) ∧
    ((∃ f ∈ dest.filter (matchPat base suffix), parsedNum f = none) →
      nextNum dest base suffix = 1) ∧
    (dest.filter (matchPat base suffix) ≠ [] →
      (∀ f ∈ dest.filter (matchPat base suffix), (parsedNum f).isSome = true) →
      ∃ m, m ∈ (dest.filter (matchPat base suffix)).filterMap parsedNum ∧
        (∀ x ∈ (dest.filter (matchPat base suffix)).filterMap parsedNum, x ≤ m) ∧
        nextNum dest base suffix = m + 1) ∧
    (dest.filter (matchPat base suffix) ≠ [] →
      getRequiredDigits dest base suffix
        = max 4 (pyStrLen
            ((((dest.filter (matchPat base suffix)).filterMap parsedNum).foldl max 0)
              + ((dest.filter (matchPat base suffix)).length : Int)))) := by
  refine ⟨?_, ?_, ?_, ?_⟩
  · intro h
    exact ⟨getRequiredDigits_empty h, nextNum_empty h⟩
  · rintro ⟨f, hf, hnone⟩
    apply nextNum_not_all
    intro hall
    have := List.all_eq_true.mp hall f hf
    rw [hnone] at this
    simp at this
  · intro hne hall
    obtain ⟨f0, hf0⟩ : ∃ f0, f0 ∈ dest.filter (matchPat base suffix) := by
      cases hc : dest.filter (matchPat base suffix) with
      | nil => exact absurd hc hne
      | cons a l => exact ⟨a, List.mem_cons_self a l⟩
    obtain ⟨v0, hv0⟩ := Option.isSome_iff_exists.mp (hall f0 hf0)
    have hvmem : v0 ∈ (dest.filter (matchPat base suffix)).filterMap parsedNum :=
      List.mem_filterMap.mpr ⟨f0, hf0, hv0⟩
    have hvne : (dest.filter (matchPat base suffix)).filterMap parsedNum ≠ [] := by
      intro hcon
      rw [hcon] at hvmem
      simp at hvmem
    obtain ⟨m, hmeq⟩ : ∃ m, listMax ((dest.filter (matchPat base suffix)).filterMap
        parsedNum) = some m := by
      cases hc : (dest.filter (matchPat base suffix)).filterMap parsedNum with
      | nil => exact absurd hc hvne
      | cons v vs => exact ⟨vs.foldl max v, rfl⟩
    obtain ⟨hmmem, hmle⟩ := listMax_mem_le hmeq
    exact ⟨m, hmmem, hmle, nextNum_all_some (List.all_eq_true.mpr hall) hmeq⟩
  · intro h
    exact getRequiredDigits_nonempty h

/-- Claim C3 witness: amended statement at the mixed destination. -/
theorem claimC3_witness :
    (∃ f ∈ ["SM_9998.jpg".toList, "SM_x.jpg".toList].filter
        (matchPat "SM".toList ".jpg".toList), parsedNum f = none) ∧
    nextNum ["SM_9998.jpg".toList, "SM_x.jpg".toList] "SM".toList ".jpg".toList = 1 :=
  ⟨by decide, (claimC3_amended ["SM_9998.jpg".toList, "SM_x.jpg".toList]
    "SM".toList ".jpg".toList).2.1 (by decide)⟩

theorem filter_filter_and {α : Type u} (p q : α → Bool) : ∀ (l : List α),
    (l.filter p).filter q = l.filter (fun a => p a && q a) := by
  intro l
  induction l with
  | nil => rfl
  | cons x xs ih =>
    by_cases hp : p x = true
    · by_cases hq : q x = true
      · simp [List.filter_cons, hp, hq, ih]
      · simp [List.filter_cons, hp, hq, ih]
    · simp [List.filter_cons, hp, ih]

/-- Claim C7: sampleEveryNthInRange keeps exactly the supported files whose
capture time-of-day t satisfies start ≤ t ≤ end when start ≤ end, and
(t ≥ start or t ≤ end) when start > end, both boundaries inclusive; the
survivors are sorted by path and the same stride selection as sampleEveryNth
is applied (positions 0, n, 2n, …). -/
theorem claimC7 (listing : List FName) (resolve : FName → DateTime) (n : Int)
    (startT endT : Time) (hn : 1 ≤ n) :
    ∃ out, sampleEveryNthInTimeRange listing resolve n startT endT = .ok out ∧
      (∀ i, out.get? i
        = (sortLe lexLe (listing.filter (fun p => isSupported p &&
            specTimeKept startT endT (resolve p).timeOfDay))).get? (n.toNat * i)) ∧
      out.length = ((listing.filter (fun p => isSupported p &&
          specTimeKept startT endT (resolve p).timeOfDay)).length + n.toNat - 1)
            / n.toNat ∧
      out.Pairwise (fun a b => lexLe a b = true) := by
  have hk : 1 ≤ n.toNat := by omega
  have e0 : sampleEveryNthInTimeRange listing resolve n startT endT
      = pySlice (sortLe lexLe ((listing.filter isSupported).filter
          (fun p => isWithinTimeRange (resolve p) startT endT))) n := rfl
  have e1 : (listing.filter isSupported).filter
      (fun p => isWithinTimeRange (resolve p) startT endT)
      = listing.filter (fun p => isSupported p &&
          specTimeKept startT endT (resolve p).timeOfDay) := by
    rw [filter_filter_and]
    rfl
  refine ⟨strideTake (sortLe lexLe (listing.filter (fun p => isSupported p &&
    specTimeKept startT endT (resolve p).timeOfDay))) n.toNat, ?_, ?_, ?_, ?_⟩
  · rw [e0, e1]
    unfold pySlice
    rw [if_neg (by omega), if_pos (by omega)]
  · intro i
    exact strideTake_get? _ _ hk i
  · rw [strideTake_length _ _ hk, sortLe_length]
  · exact List.Pairwise.sublist (strideTake_sublist _ _) (sortLe_sorted _)

/-- Claim C7 witness: a morning/afternoon range over two files, stride 1. -/
theorem claimC7_witness :
    (1 : Int) ≤ 1 ∧
    (∃ out, sampleEveryNthInTimeRange ["a.jpg".toList, "b.jpg".toList]
        (fun p => if p = "a.jpg".toList then ⟨2024, 1, 1, 9, 0, 0⟩
          else ⟨2024, 1, 1, 20, 0, 0⟩) 1 ⟨8, 0, 0⟩ ⟨15, 0, 0⟩ = .ok out ∧
      (∀ i, out.get? i
        = (sortLe lexLe ((["a.jpg".toList, "b.jpg".toList]).filter
            (fun p => isSupported p && specTimeKept ⟨8, 0, 0⟩ ⟨15, 0, 0⟩
              ((fun p => if p = "a.jpg".toList then (⟨2024, 1, 1, 9, 0, 0⟩ : DateTime)
                else ⟨2024, 1, 1, 20, 0, 0⟩) p).timeOfDay))).get? ((1 : Int).toNat * i)) ∧
      out.length = (((["a.jpg".toList, "b.jpg".toList]).filter
          (fun p => isSupported p && specTimeKept ⟨8, 0, 0⟩ ⟨15, 0, 0⟩
            ((fun p => if p = "a.jpg".toList then (⟨2024, 1, 1, 9, 0, 0⟩ : DateTime)
              else ⟨2024, 1, 1, 20, 0, 0⟩) p).timeOfDay)).length
          + (1 : Int).toNat - 1) / (1 : Int).toNat ∧
      out.Pairwise (fun a b => lexLe a b = true)) :=
  ⟨by decide, claimC7 ["a.jpg".toList, "b.jpg".toList] _ 1 ⟨8, 0, 0⟩ ⟨15, 0, 0⟩ (by decide)⟩

/-- Claim C8 counterexample: an OSError raised while opening the file (e.g.
an unreadable file, or PIL's UnidentifiedImageError which subclasses OSError)
is not among the caught classes and propagates to the caller instead of
falling back to the mtime. -/
theorem claimC8_counterexample :
    getImageDatetime (V := Unit) (.error .osError)
      (fun _ => .ok ⟨2024, 1, 1, 0, 0, 0⟩) ⟨2023, 1, 1, 0, 0, 0⟩
      = .error .osError := rfl

theorem exifAttempt_error {V : Type u} {exif : List (Nat × V)}
    {parseVal : V → Except PyExc DateTime} {e : PyExc}
    (h : exifAttempt exif parseVal = .error e) : ∃ v, parseVal v = .error e := by
  unfold exifAttempt at h
  split at h
  · simp at h
  · split at h
    · rename_i v hv
      cases hpv : parseVal v with
      | error e' =>
        rw [hpv] at h
        simp [Except.map] at h
        exact ⟨v, by rw [hpv, h]⟩
      | ok d =>
        rw [hpv] at h
        simp [Except.map] at h
    · split at h
      · rename_i v hv
        cases hpv : parseVal v with
        | error e' =>
          rw [hpv] at h
          simp [Except.map] at h
          exact ⟨v, by rw [hpv, h]⟩
        | ok d =>
          rw [hpv] at h
          simp [Except.map] at h
      · simp at h

/-- Claim C8 amended: errors of the caught classes (AttributeError, KeyError,
TypeError, ValueError) raised while reading or parsing the embedded metadata
are swallowed and the filesystem mtime is returned; when metadata is absent
the mtime is returned; but exceptions of other classes (such as OSError from
opening the file) propagate, so the resolver is total only when every raised
exception is of a caught class. -/
theorem claimC8_amended {V : Type u} (opened : Except PyExc (Option (List (Nat × V))))
    (parseVal : V → Except PyExc DateTime) (mtime : DateTime)
    (hopen : ∀ e, opened = .error e → caught e = true)
    (hparse : ∀ v e, parseVal v = .error e → caught e = true) :
    (∃ d, getImageDatetime opened parseVal mtime = .ok d) ∧
    (∀ e, opened = .error e → getImageDatetime opened parseVal mtime = .ok mtime) := by
  cases opened with
  | error e =>
    have hc := hopen e rfl
    have e0 : getImageDatetime (V := V) (.error e) parseVal mtime
        = if caught e then .ok mtime else .error e := rfl
    rw [e0, if_pos hc]
    exact ⟨⟨mtime, rfl⟩, fun _ _ => rfl⟩
  | ok oexif =>
    cases oexif with
    | none => exact ⟨⟨mtime, rfl⟩, fun e h => by cases h⟩
    | some exif =>
      have e0 : getImageDatetime (V := V) (.ok (some exif)) parseVal mtime
          = match exifAttempt exif parseVal with
            | .ok (some d) => .ok d
            | .ok none => .ok mtime
            | .error e => if caught e then .ok mtime else .error e := rfl
      refine ⟨?_, fun e h => by cases h⟩
      rw [e0]
      cases hatt : exifAttempt exif parseVal with
      | ok od =>
        cases od with
        | some d => exact ⟨d, rfl⟩
        | none => exact ⟨mtime, rfl⟩
      | error e =>
        obtain ⟨v, hv⟩ := exifAttempt_error hatt
        have hc := hparse v e hv
        exact ⟨mtime, by simp [hc]⟩

/-- Claim C8 witness: absent metadata falls back to the mtime. -/
theorem claimC8_witness :
    (∃ d, getImageDatetime (V := Unit) (.ok none)
      (fun _ => .ok ⟨2024, 1, 1, 0, 0, 0⟩) ⟨2023, 1, 1, 0, 0, 0⟩ = .ok d) ∧
    (∀ e, (.ok none : Except PyExc (Option (List (Nat × Unit)))) = .error e →
      getImageDatetime (V := Unit) (.ok none)
        (fun _ => .ok ⟨2024, 1, 1, 0, 0, 0⟩) ⟨2023, 1, 1, 0, 0, 0⟩
        = .ok ⟨2023, 1, 1, 0, 0, 0⟩) :=
  claimC8_amended (.ok none) (fun _ => .ok ⟨2024, 1, 1, 0, 0, 0⟩) ⟨2023, 1, 1, 0, 0, 0⟩
    (fun _ h => nomatch h) (fun _ _ h => nomatch h)

theorem lexLe_refl (a : List Char) : lexLe a a = true := by
  induction a with
  | nil => rfl
  | cons x s ih =>
    have h : charLt x x = false := by
      simp [charLt]
    simp [lexLe, h, ih]

theorem beforeLastJoined_spec {s : List Char} (h : '_' ∈ s) :
    beforeLastJoined s = specDropFinalUnd s := by
  unfold specDropFinalUnd
  rw [if_pos h]
  have e1 : s.reverse = (lastTok s).reverse ++ '_' :: (beforeLastJoined s).reverse := by
    conv_lhs => rw [und_decomp s h]
    simp
  rw [e1, dropWhile_append_stop _ _ _ ?hall ?hstop]
  · simp
  case hall =>
    intro c hc
    have hm := List.mem_reverse.mp hc
    have hne : ¬(c = '_') := fun h' => lastTok_no_und s (h' ▸ hm)
    simp [hne]
  case hstop => simp

theorem defaultBaseName_cons {listing : List FName} {first : FName} {rest : List FName}
    (h : sortLe lexLe (listing.filter isSupported) = first :: rest) :
    defaultBaseName listing
      = replaceCOSM (if '_' ∈ pyStem first then beforeLastJoined (pyStem first)
          else pyStem first) := by
  unfold defaultBaseName
  rw [h]

/-- Claim C9: when no baseName is supplied, the default is derived from the
lexicographically-first supported file: its stem, with everything from the
final underscore onward dropped when an underscore is present, then every
"CO" replaced by "SM" (stem "CO_009" yields "SM"); with no supported images
the default is "image"; an explicitly supplied baseName is used as-is,
independent of the source listing (the derivation is never consulted). -/
theorem claimC9 (listing : List FName) :
    (listing.filter isSupported = [] → defaultBaseName listing = "image".toList) ∧
    (∀ first rest, sortLe lexLe (listing.filter isSupported) = first :: rest →
      defaultBaseName listing = replaceCOSM (specDropFinalUnd (pyStem first)) ∧
      first ∈ listing ∧ isSupported first = true ∧
      ∀ x ∈ listing.filter isSupported, lexLe first x = true) ∧
    replaceCOSM (specDropFinalUnd ("CO_009".toList)) = "SM".toList ∧
    (∀ (b : FName) (l' : List FName), resolveBaseName (some b) listing = b ∧
      resolveBaseName (some b) listing = resolveBaseName (some b) l') := by
  refine ⟨?_, ?_, by decide, fun b l' => ⟨rfl, rfl⟩⟩
  · intro h
    unfold defaultBaseName
    rw [h]
    rfl
  · intro first rest hsort
    have hmemsort : first ∈ sortLe lexLe (listing.filter isSupported) := by
      rw [hsort]
      simp
    have hmemfil := sortLe_mem.mp hmemsort
    refine ⟨?_, (List.mem_filter.mp hmemfil).1, (List.mem_filter.mp hmemfil).2, ?_⟩
    · rw [defaultBaseName_cons hsort]
      by_cases hu : '_' ∈ pyStem first
      · rw [if_pos hu, beforeLastJoined_spec hu]
      · rw [if_neg hu]
        unfold specDropFinalUnd
        rw [if_neg hu]
    · intro x hx
      have hxs : x ∈ first :: rest := by
        rw [← hsort]
        exact sortLe_mem.mpr hx
      rcases List.mem_cons.mp hxs with h' | h'
      · subst h'
        exact lexLe_refl x
      · have hp := sortLe_sorted (listing.filter isSupported)
        rw [hsort, List.pairwise_cons] at hp
        exact hp.1 x h'

/-- Claim C9 witness: source directory {zzz.jpg, CO_009.jpg}: the first
sorted supported file is CO_009.jpg and the derived base name is "SM". -/
theorem claimC9_witness :
    sortLe lexLe ((["zzz.jpg".toList, "CO_009.jpg".toList]).filter isSupported)
      = "CO_009.jpg".toList :: ["zzz.jpg".toList] ∧
    defaultBaseName ["zzz.jpg".toList, "CO_009.jpg".toList]
      = replaceCOSM (specDropFinalUnd (pyStem ("CO_009.jpg".toList))) :=
  ⟨by decide, ((claimC9 ["zzz.jpg".toList, "CO_009.jpg".toList]).2.1
    ("CO_009.jpg".toList) ["zzz.jpg".toList] (by decide)).1⟩

/-- Claim C6: for every target time-of-day, sampleClosestToTime returns
exactly one path per calendar date (of the resolved capture times) that has a
supported image: a file of that date whose minute-of-day distance to the
target is minimal, computed without midnight wraparound (23:50 and 00:05 are
1425 minutes apart), ties resolved to either minimiser; the returned list is
sorted by path. -/
theorem claimC6 (listing : List FName) (resolve : FName → DateTime) (target : Time) :
    (∃ pick : (Nat × Nat × Nat) → FName,
      (∀ d ∈ firstKeys ((listing.filter isSupported).map (fun p => (resolve p).dateOf)),
        pick d ∈ listing.filter isSupported ∧ (resolve (pick d)).dateOf = d ∧
        ∀ q ∈ listing.filter isSupported, (resolve q).dateOf = d →
          minuteDist (resolve (pick d)) target ≤ minuteDist (resolve q) target) ∧
      sampleClosestToTime listing resolve target
        = sortLe lexLe ((firstKeys ((listing.filter isSupported).map
            (fun p => (resolve p).dateOf))).map pick)) ∧
    (firstKeys ((listing.filter isSupported).map (fun p => (resolve p).dateOf))).Nodup ∧
    (sampleClosestToTime listing resolve target).length
      = (firstKeys ((listing.filter isSupported).map
          (fun p => (resolve p).dateOf))).length ∧
    (sampleClosestToTime listing resolve target).Pairwise
      (fun a b => lexLe a b = true) ∧
    minuteDist ⟨2024, 1, 1, 23, 50, 0⟩ ⟨0, 5, 0⟩ = 1425 := by
  obtain ⟨pick, h1, h2⟩ := sampleClosestToTime_spec listing resolve target
  refine ⟨⟨pick, h1, h2⟩, firstKeys_nodup _, ?_, ?_, by decide⟩
  · rw [h2, sortLe_length, List.length_map]
  · rw [h2]
    exact sortLe_sorted _

/-- Claim C10: each of the three sampling operations returns a list of paths
that is strictly sorted by path (hence without duplicates), every element of
which is a file of the source listing whose lowercased extension is in the
supported set. -/
theorem claimC10 (listing : List FName) (resolve : FName → DateTime) (n : Int)
    (startT endT target : Time) (hnd : listing.Nodup) (hn : 1 ≤ n) :
    (∃ out, sampleEveryNth listing n = .ok out ∧
      out.Pairwise (fun a b => lexLe a b = true ∧ a ≠ b) ∧
      ∀ p ∈ out, p ∈ listing ∧ isSupported p = true) ∧
    ((sampleClosestToTime listing resolve target).Pairwise
        (fun a b => lexLe a b = true ∧ a ≠ b) ∧
      ∀ p ∈ sampleClosestToTime listing resolve target,
        p ∈ listing ∧ isSupported p = true) ∧
    (∃ out, sampleEveryNthInTimeRange listing resolve n startT endT = .ok out ∧
      out.Pairwise (fun a b => lexLe a b = true ∧ a ≠ b) ∧
      ∀ p ∈ out, p ∈ listing ∧ isSupported p = true) := by
  refine ⟨?_, ?_, ?_⟩
  · refine ⟨strideTake (sortLe lexLe (listing.filter isSupported)) n.toNat, ?_, ?_, ?_⟩
    · unfold sampleEveryNth pySlice
      rw [if_neg (by omega), if_pos (by omega)]
    · have hsorted := sortLe_sorted (listing.filter isSupported)
      have hnodup : (sortLe lexLe (listing.filter isSupported)).Nodup :=
        ((sortLe_perm lexLe _).nodup_iff).mpr (hnd.filter _)
      have hsub := strideTake_sublist (sortLe lexLe (listing.filter isSupported)) n.toNat
      exact (List.Pairwise.sublist hsub hsorted).and (List.Nodup.sublist hsub hnodup)
    · intro p hp
      have hmem := (strideTake_sublist
        (sortLe lexLe (listing.filter isSupported)) n.toNat).subset hp
      have hfil := List.mem_filter.mp (sortLe_mem.mp hmem)
      exact ⟨hfil.1, hfil.2⟩
  · obtain ⟨pick, h1, h2⟩ := sampleClosestToTime_spec listing resolve target
    constructor
    · have hmapnd : ((firstKeys ((listing.filter isSupported).map
          (fun p => (resolve p).dateOf))).map pick).Nodup := by
        apply List.Nodup.map_on ?_ (firstKeys_nodup _)
        intro x hx y hy hxy
        have hdx := (h1 x hx).2.1
        have hdy := (h1 y hy).2.1
        rw [← hdx, ← hdy, hxy]
      have hnodup : (sampleClosestToTime listing resolve target).Nodup := by
        rw [h2]
        exact ((sortLe_perm lexLe _).nodup_iff).mpr hmapnd
      have hsorted : (sampleClosestToTime listing resolve target).Pairwise
          (fun a b => lexLe a b = true) := by
        rw [h2]
        exact sortLe_sorted _
      exact hsorted.and hnodup
    · intro p hp
      rw [h2] at hp
      rcases List.mem_map.mp (sortLe_mem.mp hp) with ⟨d, hd, hpd⟩
      have hsup := (h1 d hd).1
      rw [hpd] at hsup
      have hfil := List.mem_filter.mp hsup
      exact ⟨hfil.1, hfil.2⟩
  · refine ⟨strideTake (sortLe lexLe ((listing.filter isSupported).filter
        (fun p => isWithinTimeRange (resolve p) startT endT))) n.toNat, ?_, ?_, ?_⟩
    · have e0 : sampleEveryNthInTimeRange listing resolve n startT endT
          = pySlice (sortLe lexLe ((listing.filter isSupported).filter
              (fun p => isWithinTimeRange (resolve p) startT endT))) n := rfl
      rw [e0]
      unfold pySlice
      rw [if_neg (by omega), if_pos (by omega)]
    · have hsorted := sortLe_sorted ((listing.filter isSupported).filter
        (fun p => isWithinTimeRange (resolve p) startT endT))
      have hnodup : (sortLe lexLe ((listing.filter isSupported).filter
          (fun p => isWithinTimeRange (resolve p) startT endT))).Nodup :=
        ((sortLe_perm lexLe _).nodup_iff).mpr ((hnd.filter _).filter _)
      have hsub := strideTake_sublist (sortLe lexLe ((listing.filter isSupported).filter
        (fun p => isWithinTimeRange (resolve p) startT endT))) n.toNat
      exact (List.Pairwise.sublist hsub hsorted).and (List.Nodup.sublist hsub hnodup)
    · intro p hp
      have hmem := (strideTake_sublist (sortLe lexLe ((listing.filter
        isSupported).filter (fun p => isWithinTimeRange (resolve p) startT endT)))
          n.toNat).subset hp
      have hfil := List.mem_filter.mp (sortLe_mem.mp hmem)
      have hfil2 := List.mem_filter.mp hfil.1
      exact ⟨hfil2.1, hfil2.2⟩

/-- Claim C10 witness: the three operations on a concrete two-file listing. -/
theorem claimC10_witness :
    (["b.jpg".toList, "a.jpg".toList] : List FName).Nodup ∧ (1 : Int) ≤ 2 ∧
    ((∃ out, sampleEveryNth ["b.jpg".toList, "a.jpg".toList] 2 = .ok out ∧
      out.Pairwise (fun a b => lexLe a b = true ∧ a ≠ b) ∧
      ∀ p ∈ out, p ∈ (["b.jpg".toList, "a.jpg".toList] : List FName)
        ∧ isSupported p = true) ∧
    ((sampleClosestToTime ["b.jpg".toList, "a.jpg".toList]
        (fun _ => ⟨2024, 1, 1, 12, 0, 0⟩) ⟨9, 0, 0⟩).Pairwise
        (fun a b => lexLe a b = true ∧ a ≠ b) ∧
      ∀ p ∈ sampleClosestToTime ["b.jpg".toList, "a.jpg".toList]
          (fun _ => ⟨2024, 1, 1, 12, 0, 0⟩) ⟨9, 0, 0⟩,
        p ∈ (["b.jpg".toList, "a.jpg".toList] : List FName) ∧ isSupported p = true) ∧
    (∃ out, sampleEveryNthInTimeRange ["b.jpg".toList, "a.jpg".toList]
        (fun _ => ⟨2024, 1, 1, 12, 0, 0⟩) 2 ⟨9, 0, 0⟩ ⟨15, 0, 0⟩ = .ok out ∧
      out.Pairwise (fun a b => lexLe a b = true ∧ a ≠ b) ∧
      ∀ p ∈ out, p ∈ (["b.jpg".toList, "a.jpg".toList] : List FName)
        ∧ isSupported p = true)) :=
  ⟨by decide, by decide,
    claimC10 ["b.jpg".toList, "a.jpg".toList] (fun _ => ⟨2024, 1, 1, 12, 0, 0⟩)
      2 ⟨9, 0, 0⟩ ⟨15, 0, 0⟩ ⟨9, 0, 0⟩ (by decide) (by decide)⟩

theorem nextNum_gt_vals {dest : List FName} {base s : FName}
    (hparse : ∀ nm ∈ dest.filter (matchPat base s), (parsedNum nm).isSome = true) :
    ∀ v ∈ (dest.filter (matchPat base s)).filterMap parsedNum,
      v < nextNum dest base s := by
  intro v hv
  cases hvals : (dest.filter (matchPat base s)).filterMap parsedNum with
  | nil =>
    rw [hvals] at hv
    simp at hv
  | cons v0 vs =>
    have hmeq : listMax ((dest.filter (matchPat base s)).filterMap parsedNum)
        = some (vs.foldl max v0) := by
      rw [hvals]
      rfl
    have hnn := nextNum_all_some (List.all_eq_true.mpr hparse) hmeq
    have hle := (listMax_mem_le hmeq).2 v hv
    omega

theorem copyAndRename_cons (dest : List FName) (base : FName) (f : FName)
    (rest : List FName) :
    copyAndRename dest base (f :: rest)
      = ((List.range (f :: rest).length).map
            (fun (i : Nat) => mkName base (nextNum dest base (pySuffix f) + (i : Int))
              (getRequiredDigits dest base (pySuffix f)) (pySuffix f)),
         ((List.range (f :: rest).length).map
            (fun (i : Nat) => mkName base (nextNum dest base (pySuffix f) + (i : Int))
              (getRequiredDigits dest base (pySuffix f)) (pySuffix f))).foldl
                addFile dest) := rfl

theorem copyAndRename_run (dest : List FName) (base : FName) (f : FName)
    (rest : List FName) (t : List Char)
    (hsfx : pySuffix f = '.' :: t) (ht : t ≠ []) (hdot : '.' ∉ t)
    (hparse : ∀ nm ∈ dest.filter (matchPat base ('.' :: t)),
      (parsedNum nm).isSome = true) :
    (copyAndRename dest base (f :: rest)).1
      = (List.range (f :: rest).length).map
          (fun (i : Nat) => mkName base (nextNum dest base ('.' :: t) + (i : Int))
            (getRequiredDigits dest base ('.' :: t)) ('.' :: t)) ∧
    (copyAndRename dest base (f :: rest)).2
      = dest ++ (copyAndRename dest base (f :: rest)).1 ∧
    (∀ nm ∈ ((copyAndRename dest base (f :: rest)).2).filter (matchPat base ('.' :: t)),
      (parsedNum nm).isSome = true) ∧
    nextNum ((copyAndRename dest base (f :: rest)).2) base ('.' :: t)
      = nextNum dest base ('.' :: t) + ((f :: rest).length : Int) := by
  have hP := nextNum_gt_vals hparse
  have hk : 1 ≤ (f :: rest).length := by simp
  have h1 : (copyAndRename dest base (f :: rest)).1
      = (List.range (f :: rest).length).map
          (fun (i : Nat) => mkName base (nextNum dest base ('.' :: t) + (i : Int))
            (getRequiredDigits dest base ('.' :: t)) ('.' :: t)) := by
    rw [copyAndRename_cons, hsfx]
  have hnodup : ((List.range (f :: rest).length).map
      (fun (i : Nat) => mkName base (nextNum dest base ('.' :: t) + (i : Int))
        (getRequiredDigits dest base ('.' :: t)) ('.' :: t))).Nodup := by
    apply List.Nodup.map_on ?_ (List.nodup_range _)
    intro i hi j hj hij
    have e1 := parsedNum_mkName base (nextNum dest base ('.' :: t) + i)
      (getRequiredDigits dest base ('.' :: t)) t ht hdot
    have e2 := parsedNum_mkName base (nextNum dest base ('.' :: t) + j)
      (getRequiredDigits dest base ('.' :: t)) t ht hdot
    rw [hij] at e1
    rw [e1] at e2
    have : nextNum dest base ('.' :: t) + (i : Int)
        = nextNum dest base ('.' :: t) + (j : Int) := by
      exact Option.some.inj e2
    omega
  have hdisj : ∀ nm ∈ (List.range (f :: rest).length).map
      (fun (i : Nat) => mkName base (nextNum dest base ('.' :: t) + (i : Int))
        (getRequiredDigits dest base ('.' :: t)) ('.' :: t)), nm ∉ dest := by
    intro nm hnm hmem
    rcases List.mem_map.mp hnm with ⟨i, hi, hie⟩
    have hfil : nm ∈ dest.filter (matchPat base ('.' :: t)) :=
      List.mem_filter.mpr ⟨hmem, by rw [← hie]; exact matchPat_mkName _ _ _ _⟩
    have hv : (nextNum dest base ('.' :: t) + (i : Int))
        ∈ (dest.filter (matchPat base ('.' :: t))).filterMap parsedNum :=
      List.mem_filterMap.mpr ⟨nm, hfil,
        by rw [← hie]; exact parsedNum_mkName _ _ _ t ht hdot⟩
    have := hP _ hv
    omega
  have h2 : (copyAndRename dest base (f :: rest)).2
      = dest ++ (copyAndRename dest base (f :: rest)).1 := by
    rw [h1, copyAndRename_cons, hsfx]
    exact foldl_addFile_append _ dest hdisj hnodup
  have hfe : (dest ++ (List.range (f :: rest).length).map
      (fun (i : Nat) => mkName base (nextNum dest base ('.' :: t) + (i : Int))
        (getRequiredDigits dest base ('.' :: t)) ('.' :: t))).filter
          (matchPat base ('.' :: t))
      = dest.filter (matchPat base ('.' :: t))
        ++ (List.range (f :: rest).length).map
          (fun (i : Nat) => mkName base (nextNum dest base ('.' :: t) + (i : Int))
            (getRequiredDigits dest base ('.' :: t)) ('.' :: t)) := by
    rw [List.filter_append]
    congr 1
    apply List.filter_eq_self.mpr
    intro nm hnm
    rcases List.mem_map.mp hnm with ⟨i, hi, hie⟩
    rw [← hie]
    exact matchPat_mkName _ _ _ _
  have h4 : ∀ nm ∈ ((copyAndRename dest base (f :: rest)).2).filter
      (matchPat base ('.' :: t)), (parsedNum nm).isSome = true := by
    rw [h2, h1, hfe]
    intro nm hnm
    rcases List.mem_append.mp hnm with h' | h'
    · exact hparse nm h'
    · rcases List.mem_map.mp h' with ⟨i, hi, hie⟩
      rw [← hie, parsedNum_mkName _ _ _ t ht hdot]
      rfl
  have hfm : (((copyAndRename dest base (f :: rest)).2).filter
      (matchPat base ('.' :: t))).filterMap parsedNum
      = (dest.filter (matchPat base ('.' :: t))).filterMap parsedNum
        ++ (List.range (f :: rest).length).map
          (fun (i : Nat) => (nextNum dest base ('.' :: t) + (i : Int))) := by
    rw [h2, h1, hfe, List.filterMap_append]
    congr 1
    rw [List.filterMap_map]
    apply filterMap_eq_map_of
    intro i hi
    exact parsedNum_mkName _ _ _ t ht hdot
  have hmax2 : listMax ((((copyAndRename dest base (f :: rest)).2).filter
      (matchPat base ('.' :: t))).filterMap parsedNum)
      = some (nextNum dest base ('.' :: t) + ((f :: rest).length : Int) - 1) := by
    rw [hfm]
    apply listMax_eq_of
    · apply List.mem_append.mpr
      right
      apply List.mem_map.mpr
      refine ⟨(f :: rest).length - 1, List.mem_range.mpr (by omega), ?_⟩
      have e : (((f :: rest).length - 1 : Nat) : Int)
          = ((f :: rest).length : Int) - 1 := by omega
      rw [e]
      ring
    · intro x hx
      rcases List.mem_append.mp hx with h' | h'
      · have := hP x h'
        omega
      · rcases List.mem_map.mp h' with ⟨i, hi, hie⟩
        have hik := List.mem_range.mp hi
        rw [← hie]
        omega
  refine ⟨h1, h2, h4, ?_⟩
  have := nextNum_all_some (List.all_eq_true.mpr h4) hmax2
  rw [this]
  ring

/-- Claim C2 counterexample: with destination initially {SM_bad.jpg} (an
unparseable matching name), two consecutive runs both allocate index 1: the
first produces SM_0001.jpg and the second produces SM_0001.jpg again,
overwriting it — a reused sequence number. -/
theorem claimC2_counterexample :
    (copyAndRename ["SM_bad.jpg".toList] "SM".toList ["a.jpg".toList]).1
      = ["SM_0001.jpg".toList] ∧
    (copyAndRename (copyAndRename ["SM_bad.jpg".toList] "SM".toList
        ["a.jpg".toList]).2 "SM".toList ["b.jpg".toList]).1
      = ["SM_0001.jpg".toList] := by decide

/-- Claim C2 amended: for two consecutive copyAndRename invocations against
the same destination with the same base name and extension, PROVIDED every
pre-existing destination file matching {base}_*{ext} has a parseable numeric
suffix, no sequence number is reused: the numeric suffixes of the produced
names form one strictly increasing run st, st+1, …, the produced filenames
are pairwise distinct, and the second run continues exactly where the first
stopped (its first index is one plus the first run's last index). Without
the parseability proviso the claim fails (see the counterexample). -/
theorem claimC2_amended (dest : List FName) (base : FName)
    (f₁ f₂ : FName) (r₁ r₂ : List FName) (t : List Char)
    (hs₁ : pySuffix f₁ = '.' :: t) (hs₂ : pySuffix f₂ = '.' :: t)
    (ht : t ≠ []) (hdot : '.' ∉ t)
    (hparse : ∀ nm ∈ dest.filter (matchPat base ('.' :: t)),
      (parsedNum nm).isSome = true) :
    ∃ st : Int,
      ((copyAndRename dest base (f₁ :: r₁)).1
        ++ (copyAndRename (copyAndRename dest base (f₁ :: r₁)).2 base
            (f₂ :: r₂)).1).map parsedNum
        = (List.range ((f₁ :: r₁).length + (f₂ :: r₂).length)).map
            (fun (i : Nat) => some (st + (i : Int))) ∧
      ((copyAndRename dest base (f₁ :: r₁)).1
        ++ (copyAndRename (copyAndRename dest base (f₁ :: r₁)).2 base
            (f₂ :: r₂)).1).Nodup ∧
      (copyAndRename dest base (f₁ :: r₁)).1.length = (f₁ :: r₁).length ∧
      (copyAndRename (copyAndRename dest base (f₁ :: r₁)).2 base
          (f₂ :: r₂)).1.length = (f₂ :: r₂).length := by
  obtain ⟨h11, h12, h13, h14⟩ :=
    copyAndRename_run dest base f₁ r₁ t hs₁ ht hdot hparse
  obtain ⟨h21, h22, h23, h24⟩ :=
    copyAndRename_run ((copyAndRename dest base (f₁ :: r₁)).2) base f₂ r₂ t
      hs₂ ht hdot h13
  refine ⟨nextNum dest base ('.' :: t), ?_, ?_, ?_, ?_⟩
  · rw [List.map_append, h11, h21, h14]
    rw [List.map_map, List.map_map]
    rw [List.range_add, List.map_append, List.map_map]
    congr 1
    · apply List.map_congr_left
      intro i hi
      simp only [Function.comp]
      rw [parsedNum_mkName _ _ _ t ht hdot]
    · apply List.map_congr_left
      intro i hi
      simp only [Function.comp]
      rw [parsedNum_mkName _ _ _ t ht hdot]
      congr 1
      push_cast
      ring
  · have hmapped : (((copyAndRename dest base (f₁ :: r₁)).1
        ++ (copyAndRename (copyAndRename dest base (f₁ :: r₁)).2 base
            (f₂ :: r₂)).1).map parsedNum).Nodup := by
      rw [List.map_append, h11, h21, h14]
      rw [List.map_map, List.map_map]
      rw [show ((List.range (f₁ :: r₁).length).map
          (parsedNum ∘ fun (i : Nat) => mkName base (nextNum dest base ('.' :: t) + (i : Int))
            (getRequiredDigits dest base ('.' :: t)) ('.' :: t))
          ++ (List.range (f₂ :: r₂).length).map
          (parsedNum ∘ fun (i : Nat) => mkName base
            (nextNum dest base ('.' :: t) + ((f₁ :: r₁).length : Int) + (i : Int))
            (getRequiredDigits ((copyAndRename dest base (f₁ :: r₁)).2) base
              ('.' :: t)) ('.' :: t)))
          = (List.range (f₁ :: r₁).length).map
              (fun (i : Nat) => some (nextNum dest base ('.' :: t) + (i : Int)))
            ++ (List.range (f₂ :: r₂).length).map
              (fun (i : Nat) => some (nextNum dest base ('.' :: t)
                + ((f₁ :: r₁).length : Int) + (i : Int))) from by
        congr 1
        · apply List.map_congr_left
          intro i hi
          simp only [Function.comp]
          rw [parsedNum_mkName _ _ _ t ht hdot]
        · apply List.map_congr_left
          intro i hi
          simp only [Function.comp]
          rw [parsedNum_mkName _ _ _ t ht hdot]]
      rw [List.nodup_append]
      refine ⟨?_, ?_, ?_⟩
      · apply List.Nodup.map_on ?_ (List.nodup_range _)
        intro i hi j hj hij
        have := Option.some.inj hij
        omega
      · apply List.Nodup.map_on ?_ (List.nodup_range _)
        intro i hi j hj hij
        have := Option.some.inj hij
        omega
      · intro a ha hb
        rcases List.mem_map.mp ha with ⟨i, hi, hie⟩
        rcases List.mem_map.mp hb with ⟨j, hj, hje⟩
        rw [← hie] at hje
        have := Option.some.inj hje
        have hik := List.mem_range.mp hi
        have hjk := List.mem_range.mp hj
        omega
    exact List.Nodup.of_map parsedNum hmapped
  · rw [h11]
    simp
  · rw [h21]
    simp

/-- Claim C2 witness: amended statement starting from an empty destination,
one file per run: the runs produce SM_0001.jpg then SM_0002.jpg. -/
theorem claimC2_witness :
    pySuffix ("a.jpg".toList) = '.' :: "jpg".toList ∧
    (∃ st : Int,
      ((copyAndRename [] "SM".toList ["a.jpg".toList]).1
        ++ (copyAndRename (copyAndRename [] "SM".toList ["a.jpg".toList]).2
            "SM".toList ["b.jpg".toList]).1).map parsedNum
        = (List.range ((["a.jpg".toList] : List FName).length
            + (["b.jpg".toList] : List FName).length)).map
              (fun (i : Nat) => some (st + (i : Int))) ∧
      ((copyAndRename [] "SM".toList ["a.jpg".toList]).1
        ++ (copyAndRename (copyAndRename [] "SM".toList ["a.jpg".toList]).2
            "SM".toList ["b.jpg".toList]).1).Nodup ∧
      (copyAndRename [] "SM".toList ["a.jpg".toList]).1.length
        = (["a.jpg".toList] : List FName).length ∧
      (copyAndRename (copyAndRename [] "SM".toList ["a.jpg".toList]).2
          "SM".toList ["b.jpg".toList]).1.length
        = (["b.jpg".toList] : List FName).length) :=
  ⟨by decide, claimC2_amended [] "SM".toList "a.jpg".toList "b.jpg".toList [] []
    "jpg".toList (by decide) (by decide) (by decide) (by decide)
    (fun nm hnm => by simp at hnm)⟩

end Samplr
